import Mathlib

/-!
Verification of the zips-to-gitlab-mr orchestration script (src/index.js).

The script extracts zip archives, removes `.git` directories from the
extracted tree, copies allow-listed directories into a cloned repository
working tree, commits them on a fresh branch, pushes, and requests a merge
request per archive.

We embed the file-system tree manipulated by the script as an inductive
tree of named entries, and translate each recursive walk of the source
(`findAndCopyQFolders`, `copyDirectory`, `removeGitFolders`) into a Lean
function over that tree.  Fallible operations (Node `fs` calls that can
reject) return `Except String _`.  List order of a directory's entries
stands for the order in which `fs.readdir` returns them; sibling names are
unique on a real file system, which is the `wfT` predicate below.
-/

/-- A file-system tree: a file with its byte content, or a directory with a
list of named entries (in `readdir` order). -/
inductive FSTree where
  | file (content : List Nat) : FSTree
  | dir (entries : List (String × FSTree)) : FSTree

/-- First entry with the given name, mirroring path resolution on a real
file system (names are unique in a well-formed directory). -/
def findEntry : List (String × FSTree) → String → Option FSTree
  | [], _ => none
  | (m, t) :: rest, n => if m = n then some t else findEntry rest n

/-- Replace the entry with the given name (or append it): the effect of
writing at a path inside a directory. -/
def setEntry : List (String × FSTree) → String → FSTree → List (String × FSTree)
  | [], n, t => [(n, t)]
  | (m, u) :: rest, n, t => if m = n then (n, t) :: rest else (m, u) :: setEntry rest n t

/-- Resolve a relative path (a list of component names) in a tree. -/
def lookupPath : FSTree → List String → Option FSTree
  | t, [] => some t
  | .file _, _ :: _ => none
  | .dir items, n :: rest =>
      match findEntry items n with
      | some t => lookupPath t rest
      | none => none

/-- The bytes of the regular file at a relative path, if the path resolves
to a regular file. -/
def fileAt (t : FSTree) (p : List String) : Option (List Nat) :=
  match lookupPath t p with
  | some (.file c) => some c
  | _ => none

/-- Whether a tree node is a directory. -/
def isDirT : FSTree → Bool
  | .file _ => false
  | .dir _ => true

/-- Names of a directory's entries. -/
def namesOf (items : List (String × FSTree)) : List String := items.map Prod.fst

mutual

/-- Well-formedness of a tree as a real directory tree: sibling entry names
are distinct, recursively. -/
def wfT : FSTree → Bool
  | .file _ => true
  | .dir items => wfItems items

/-- Well-formedness of an entry list: head name absent from the tail, all
subtrees well-formed. -/
def wfItems : List (String × FSTree) → Bool
  | [] => true
  | (n, t) :: rest => (!(namesOf rest).contains n) && wfT t && wfItems rest

end

/-!
## `copyDirectory` (src/index.js lines 79-93)

`copyDirectory(src, dest)` does `mkdir(dest, { recursive: true })`, then for
each entry of `src`: recurse for a directory, `copyFile` for a file
(overwriting an existing destination file).  We model the destination as the
tree node currently at the destination path (`none` when absent; `mkdir`
then creates an empty directory).  `mkdir -p` over an existing file and
`copyFile` onto a directory reject, which `Except.error` captures.
-/

mutual

/-- Model of `copyDirectory(src, dest)`: merge the source directory into the
node currently at the destination path (`none` = destination missing). -/
def copyDirectory : FSTree → Option FSTree → Except String FSTree
  | .file _, _ => .error ("ENOTDIR: readdir on a regular file")
  | .dir _, some (.file _) => .error ("EEXIST: mkdir over an existing file")
  | .dir es, some (.dir des) =>
      match copyEntries es des with
      | .ok des' => .ok (.dir des')
      | .error e => .error e
  | .dir es, none =>
      match copyEntries es [] with
      | .ok des' => .ok (.dir des')
      | .error e => .error e

/-- The body of `copyDirectory`'s `for` loop: fold the source entries over
the destination's entry list. -/
def copyEntries : List (String × FSTree) → List (String × FSTree) →
    Except String (List (String × FSTree))
  | [], des => .ok des
  | (n, .file c) :: rest, des =>
      match findEntry des n with
      | some (.dir _) => .error ("EISDIR: copyFile onto a directory")
      | _ => copyEntries rest (setEntry des n (.file c))
  | (n, .dir ds) :: rest, des =>
      match copyDirectory (.dir ds) (findEntry des n) with
      | .ok d => copyEntries rest (setEntry des n d)
      | .error e => .error e

end

/-- Model of `copyDirectory(itemPath, join(destDir, item.name))` where
`destDir` is the repository root:  copy `src` to the entry `n` of `repo`. -/
def copyIntoRepo (repo : FSTree) (n : String) (src : FSTree) : Except String FSTree :=
  match repo with
  | .file _ => .error ("ENOTDIR: repository root is not a directory")
  | .dir res =>
      match copyDirectory src (findEntry res n) with
      | .ok d => .ok (.dir (setEntry res n d))
      | .error e => .error e

/-!
## `findAndCopyQFolders` (src/index.js lines 61-76)

The selector walk.  `knownDirectories` comes from
`process.env.KNOWN_DIRECTORIES?.split(";")` and is `undefined` when the
variable is unset; `knownDirectories.includes(...)` then throws a
`TypeError`.  We keep the configured allow-list as `Option (List String)`
to model exactly that.  The walk only looks at directory entries; a
matching directory is copied wholesale to the repository root and not
recursed into; a non-matching directory is recursed into with the same
destination.
-/

mutual

/-- Model of `findAndCopyQFolders(srcDir, destDir)` with `destDir` the
repository root `repo`. -/
def findAndCopyQFolders (allow? : Option (List String)) (src : FSTree) (repo : FSTree) :
    Except String FSTree :=
  match src with
  | .file _ => .error ("ENOTDIR: readdir on a regular file")
  | .dir items => facItems allow? items repo

/-- The body of `findAndCopyQFolders`'s `for` loop over the entries. -/
def facItems (allow? : Option (List String)) :
    List (String × FSTree) → FSTree → Except String FSTree
  | [], repo => .ok repo
  | (_, .file _) :: rest, repo => facItems allow? rest repo
  | (n, .dir ds) :: rest, repo =>
      match allow? with
      | none => .error ("TypeError: knownDirectories is undefined")
      | some allow =>
          if n ∈ allow then
            match copyIntoRepo repo n (.dir ds) with
            | .ok repo' => facItems allow? rest repo'
            | .error e => .error e
          else
            match findAndCopyQFolders allow? (.dir ds) repo with
            | .ok repo' => facItems allow? rest repo'
            | .error e => .error e

end

/-!
The matches the selector walk finds, in walk (depth-first, `readdir`) order.
A match is recorded as `(pre, n, D)`: the matched directory `D` named `n`
sits at path `pre ++ [n]` in the walked tree.  This is the specification
device used to reason about which directories `findAndCopyQFolders` copies.
-/

mutual

/-- The `(path prefix, name, subtree)` triples of the directories the
selector walk copies, in walk order. -/
def foundMatches (allow : List String) : FSTree → List (List String × String × FSTree)
  | .file _ => []
  | .dir items => fmItems allow items

/-- `foundMatches` over an entry list. -/
def fmItems (allow : List String) : List (String × FSTree) → List (List String × String × FSTree)
  | [] => []
  | (_, .file _) :: rest => fmItems allow rest
  | (n, .dir ds) :: rest =>
      if n ∈ allow then ([], n, FSTree.dir ds) :: fmItems allow rest
      else (foundMatches allow (.dir ds)).map (fun m => (n :: m.1, m.2.1, m.2.2))
        ++ fmItems allow rest

end

/-- Execute the copies of a list of matches in order: the copy actions the
selector walk performs. -/
def runCopies (repo : FSTree) : List (List String × String × FSTree) → Except String FSTree
  | [] => .ok repo
  | (_, n, d) :: rest =>
      match copyIntoRepo repo n d with
      | .ok repo' => runCopies repo' rest
      | .error e => .error e

/-!
## `removeGitFolders` (src/index.js lines 202-214)

Depth-first walk deleting every directory literally named `.git`; other
directories are recursed into; regular files (even ones named `.git`) are
left alone.
-/

mutual

/-- Model of `removeGitFolders(dir)`. -/
def removeGitFolders : FSTree → FSTree
  | .file c => .file c
  | .dir items => .dir (removeGitItems items)

/-- The body of `removeGitFolders`'s loop over the entries. -/
def removeGitItems : List (String × FSTree) → List (String × FSTree)
  | [] => []
  | (n, .file c) :: rest => (n, .file c) :: removeGitItems rest
  | (n, .dir ds) :: rest =>
      if n = ".git" then removeGitItems rest
      else (n, removeGitFolders (.dir ds)) :: removeGitItems rest

end

mutual

/-- No directory anywhere in the tree is named `.git` (regular files may
be). -/
def noGitDirB : FSTree → Bool
  | .file _ => true
  | .dir items => noGitItems items

/-- `noGitDirB` over an entry list. -/
def noGitItems : List (String × FSTree) → Bool
  | [] => true
  | (n, t) :: rest => (isDirT t = false || n ≠ ".git") && noGitDirB t && noGitItems rest

end

mutual

/-- Whether some directory anywhere in the tree has a name in `allow`. -/
def hasAllowedDir (allow : List String) : FSTree → Bool
  | .file _ => false
  | .dir items => hasAllowedDirItems allow items

/-- `hasAllowedDir` over an entry list. -/
def hasAllowedDirItems (allow : List String) : List (String × FSTree) → Bool
  | [] => false
  | (n, t) :: rest =>
      (isDirT t && decide (n ∈ allow)) || hasAllowedDir allow t || hasAllowedDirItems allow rest

end

/-- Model of lines 109-112 of `processZipFile`: sanitize the extracted tree
first (`removeGitFolders` runs to completion), then run the selector walk
over the sanitized tree into the repository working tree. -/
def sanitizeThenSelect (allow? : Option (List String)) (extracted repo : FSTree) :
    Except String FSTree :=
  findAndCopyQFolders allow? (removeGitFolders extracted) repo

/-!
## Branch names, commit messages (src/index.js lines 99-101, 117)

`branchName` is  `` `${branchNamePrefix}-${basename(zipFile, ".zip")}` ``
and the commit message is  `` `Add files from ${basename(zipFile)}` ``,
with `zipFile = join("zips/", file)`.  We model Node's `path.basename`
(posix) for paths without trailing slashes and a slash-free extension
argument, which is the only way the script calls it:

* if `ext` is empty or longer than `path`, the extension is ignored;
* if `path === ext`, Node returns the empty string;
* otherwise take the last `/`-separated segment `b`; when `b` ends with
  `ext` *and is not `ext` itself* the suffix is stripped (Node's
  `start === end` fix-up keeps the whole segment when stripping would
  leave it empty), else `b` is returned whole.
-/

/-- Last `/`-separated segment of a path (the path has no trailing slash). -/
def afterLastSlash (s : String) : String :=
  String.mk ((s.data.reverse.takeWhile (fun c => c ≠ '/')).reverse)

/-- Model of Node `path.basename(p, ext)` in the regime described above. -/
def nodeBasename (p ext : String) : String :=
  if ext.data.length = 0 ∨ p.data.length < ext.data.length then afterLastSlash p
  else if p = ext then String.mk []
  else if ext.data.isSuffixOf (afterLastSlash p).data ∧ ¬ afterLastSlash p = ext then
    String.mk ((afterLastSlash p).data.take
      ((afterLastSlash p).data.length - ext.data.length))
  else afterLastSlash p

/-- `join("zips/", file)` for a plain file name (no slashes, nonempty). -/
def zipsPath (f : String) : String := "zips/" ++ f

/-- Line 100: the branch name generated for an archive file name. -/
def branchNameOf (pre f : String) : String :=
  pre ++ "-" ++ nodeBasename (zipsPath f) (".zip")

/-- Line 117: the commit message generated for an archive file name
(`basename` without an extension argument is the last path segment). -/
def commitMessageOf (f : String) : String :=
  "Add files from " ++ afterLastSlash (zipsPath f)

/-- Line 101: the per-archive scratch directory name. -/
def tmpDirOf (f : String) : String := nodeBasename (zipsPath f) (".zip")

/-!
## Orchestration (src/index.js lines 99-170, 216-222)

`processZipFile` awaits, in order: `mkdir` of the scratch directory,
`unzipFile`, `removeGitFolders`, `findAndCopyQFolders`,
`checkoutLocalBranch`, `add`, `commit`, then `pushAndCreateMergeRequest`
(whose `git.push` is *outside* the `try` and whose `axios.post` is the only
call wrapped in `try/catch`), then `rm` of the scratch directory.  The
`main` loop awaits `processZipFile` and then `git.checkout(baseBranch)` per
archive, with no `try` around either, and `main().catch(console.error)`
ends the run at the first rejection.

We model each awaited operation by whether it resolves or rejects
(`ArchiveSpec` flags), thread the currently checked-out branch through, and
record the sequence of attempted operations and log lines as a list of
effects.  `Eff.archiveStart` is a marker recording, at the moment
`processZipFile` is entered for an archive, which branch is checked out.
-/

/-- Observable operations and log lines of one run, in order. -/
inductive Eff where
  | archiveStart (branch : String) (zip : String)
  | mkTmp (tmp : String)
  | unzip (zip : String) (tmp : String)
  | removeGit (tmp : String)
  | findCopy (tmp : String)
  | checkoutLocal (branch : String)
  | addAll
  | commit (msg : String)
  | push (branch : String)
  | apiPost (srcBranch : String) (tgtBranch : String)
  | logSuccess
  | logError
  | rmTmp (tmp : String)
  | checkoutBase (branch : String)
deriving DecidableEq

/-- One archive together with the resolve/reject outcome of each awaited
operation performed while processing it. -/
structure ArchiveSpec where
  zipName : String
  mkTmpOk : Bool
  unzipOk : Bool
  removeGitOk : Bool
  findCopyOk : Bool
  checkoutLocalOk : Bool
  addOk : Bool
  commitOk : Bool
  pushOk : Bool
  apiOk : Bool
  rmTmpOk : Bool
  checkoutBaseOk : Bool

/-- Sequencing of awaited steps: a rejection short-circuits (there is no
`try` in `processZipFile` or in the `main` loop); the effect list records
what was attempted. -/
def andThen (x : List Eff × Option String) (k : String → List Eff × Option String) :
    List Eff × Option String :=
  match x with
  | (fx, none) => (fx, none)
  | (fx, some s) => (fx ++ (k s).1, (k s).2)

/-- A single awaited operation: records its effect, rejects when `ok` is
false, passes the branch state `cur` through. -/
def awaitOp (e : Eff) (ok : Bool) (cur : String) : List Eff × Option String :=
  ([e], if ok then some cur else none)

/-- Model of `pushAndCreateMergeRequest` (lines 136-170): the push is
awaited outside any `try`; the API call is inside `try/catch`, so it never
rejects — it logs the success URL or the error and falls through. -/
def pushAndCreateMergeRequest (branchName baseBranch : String) (pushOk apiOk : Bool)
    (cur : String) : List Eff × Option String :=
  andThen (awaitOp (.push branchName) pushOk cur) (fun c =>
    (Eff.apiPost branchName baseBranch :: (if apiOk then [Eff.logSuccess] else [Eff.logError]),
      some c))

/-- Model of `processZipFile` (lines 99-128).  `checkoutLocalBranch` moves
the working tree onto the new branch. -/
def processZipFile (pre base : String) (a : ArchiveSpec) (cur : String) :
    List Eff × Option String :=
  andThen ([Eff.archiveStart cur a.zipName], some cur) (fun c0 =>
  andThen (awaitOp (.mkTmp (tmpDirOf a.zipName)) a.mkTmpOk c0) (fun c1 =>
  andThen (awaitOp (.unzip a.zipName (tmpDirOf a.zipName)) a.unzipOk c1) (fun c2 =>
  andThen (awaitOp (.removeGit (tmpDirOf a.zipName)) a.removeGitOk c2) (fun c3 =>
  andThen (awaitOp (.findCopy (tmpDirOf a.zipName)) a.findCopyOk c3) (fun _ =>
  andThen (awaitOp (.checkoutLocal (branchNameOf pre a.zipName)) a.checkoutLocalOk
      (branchNameOf pre a.zipName)) (fun c5 =>
  andThen (awaitOp .addAll a.addOk c5) (fun c6 =>
  andThen (awaitOp (.commit (commitMessageOf a.zipName)) a.commitOk c6) (fun c7 =>
  andThen (pushAndCreateMergeRequest (branchNameOf pre a.zipName) base a.pushOk a.apiOk c7)
    (fun c8 =>
  awaitOp (.rmTmp (tmpDirOf a.zipName)) a.rmTmpOk c8)))))))))

/-- Model of the `main` loop (lines 216-219): process each archive, then
`git.checkout(baseBranch)`; any rejection ends the run. -/
def mainLoop (pre base : String) : List ArchiveSpec → String → List Eff × Option String
  | [], cur => ([], some cur)
  | a :: rest, cur =>
      match processZipFile pre base a cur with
      | (fx, none) => (fx, none)
      | (fx, some _) =>
          if a.checkoutBaseOk then
            (fx ++ Eff.checkoutBase base :: (mainLoop pre base rest base).1,
              (mainLoop pre base rest base).2)
          else (fx ++ [Eff.checkoutBase base], none)

/-- The whole run after the initial clone: line 54 checks out the base
branch, then the loop runs. -/
def runMain (pre base : String) (specs : List ArchiveSpec) : List Eff × Option String :=
  mainLoop pre base specs base

/-- All awaited operations of `processZipFile` other than the API call
resolve (the API call's outcome is deliberately not mentioned). -/
def nonApiOk (a : ArchiveSpec) : Bool :=
  a.mkTmpOk && a.unzipOk && a.removeGitOk && a.findCopyOk && a.checkoutLocalOk &&
    a.addOk && a.commitOk && a.pushOk && a.rmTmpOk

/-- Every awaited operation of the archive's iteration (including the
loop's checkout of the base branch) resolves, API call aside. -/
def specOk (a : ArchiveSpec) : Bool := nonApiOk a && a.checkoutBaseOk

/-- The archives whose processing was started, read off the effect list. -/
def attemptedZips (fx : List Eff) : List String :=
  fx.filterMap (fun e => match e with | .archiveStart _ z => some z | _ => none)

/-- The same archive with the API call's outcome replaced (used to compare
the API-success and API-failure runs of one archive). -/
def setApiOk (a : ArchiveSpec) (v : Bool) : ArchiveSpec :=
  ⟨a.zipName, a.mkTmpOk, a.unzipOk, a.removeGitOk, a.findCopyOk, a.checkoutLocalOk,
   a.addOk, a.commitOk, a.pushOk, v, a.rmTmpOk, a.checkoutBaseOk⟩

/-!
## `unzipFile` (src/index.js lines 176-196)

The extraction promise is settled by stream events: each `entry` event
materializes one archive entry under the output directory (directories via
`mkdir -p`; files via `mkdir -p` of the parent and a write), `close`
resolves, `error` rejects.  We model the event sequence the stream emits as
a list; the promise's outcome is the first `close`/`error` event, `none`
when the stream never settles.  Entry materialization is modeled in the
conflict-free regime (writes overwrite; a real run racing a write against a
conflicting node would surface outside this promise as an unhandled
rejection, which lines 176-196 never turn into a `reject`).
-/

/-- One event of the unzip stream. -/
inductive ZipEvent where
  | entry (path : String) (isDir : Bool) (content : List Nat)
  | closeEv
  | errorEv (msg : String)

/-- Whether an event is an `entry` event. -/
def isEntryEv : ZipEvent → Bool
  | .entry _ _ _ => true
  | _ => false

/-- Path components of a zip entry path (`join` drops empty segments and a
trailing slash). -/
def splitPath (p : String) : List String :=
  (p.splitOn ("/")).filter (fun s => s ≠ "")

/-- `mkdir(path, { recursive: true })`: create the missing directories of
the path (existing nodes are left in place). -/
def mkdirp : FSTree → List String → FSTree
  | t, [] => t
  | .file c, _ :: _ => .file c
  | .dir items, n :: rest =>
      match findEntry items n with
      | some t => .dir (setEntry items n (mkdirp t rest))
      | none => .dir (setEntry items n (mkdirp (.dir []) rest))

/-- Write a file at a path (parent directories already ensured). -/
def writeFileAt : FSTree → List String → List Nat → FSTree
  | t, [], _ => t
  | .file c0, _ :: _, _ => .file c0
  | .dir items, [n], c => .dir (setEntry items n (.file c))
  | .dir items, n :: m :: rest, c =>
      match findEntry items n with
      | some t => .dir (setEntry items n (writeFileAt t (m :: rest) c))
      | none => .dir (setEntry items n (writeFileAt (.dir []) (m :: rest) c))

/-- The `entry` handler (lines 180-192): a directory entry is `mkdir -p`ed
and drained; a file entry gets its parent `mkdir -p`ed and its content
written. -/
def applyEntry (out : FSTree) : ZipEvent → FSTree
  | .entry p d c =>
      if d then mkdirp out (splitPath p)
      else writeFileAt (mkdirp out (splitPath p).dropLast) (splitPath p) c
  | .closeEv => out
  | .errorEv _ => out

/-- Model of `unzipFile`'s promise: entries are applied in stream order;
the first `close` resolves with the materialized tree, the first `error`
rejects; `none` when the stream never settles. -/
def unzipFile : List ZipEvent → FSTree → Option (Except String FSTree)
  | [], _ => none
  | .entry p d c :: rest, out => unzipFile rest (applyEntry out (.entry p d c))
  | .closeEv :: _, out => some (.ok out)
  | .errorEv m :: _, _ => some (.error m)

/-!
## Basic lemmas about entry lists
-/

theorem findEntry_setEntry_same (items : List (String × FSTree)) (n : String) (t : FSTree) :
    findEntry (setEntry items n t) n = some t := by
  induction items with
  | nil => simp [setEntry, findEntry]
  | cons hd rest ih =>
      obtain ⟨m, u⟩ := hd
      by_cases h : m = n
      · simp [setEntry, findEntry, h]
      · simp [setEntry, findEntry, h, ih]

theorem findEntry_setEntry_other (items : List (String × FSTree)) (n m : String) (t : FSTree)
    (h : m ≠ n) : findEntry (setEntry items n t) m = findEntry items m := by
  induction items with
  | nil => simp [setEntry, findEntry, Ne.symm h]
  | cons hd rest ih =>
      obtain ⟨k, u⟩ := hd
      by_cases hk : k = n
      · subst hk
        simp [setEntry, findEntry, Ne.symm h]
      · simp only [setEntry, if_neg hk]
        by_cases hm : k = m
        · simp [findEntry, hm]
        · simp [findEntry, hm, ih]

theorem wfItems_cons (n : String) (t : FSTree) (rest : List (String × FSTree)) :
    wfItems ((n, t) :: rest) = true ↔
      n ∉ namesOf rest ∧ wfT t = true ∧ wfItems rest = true := by
  simp only [wfItems, Bool.and_eq_true, Bool.not_eq_true']
  constructor
  · rintro ⟨⟨hc, hw⟩, hr⟩
    refine ⟨?_, hw, hr⟩
    intro hm
    have h2 : (namesOf rest).contains n = true := List.elem_iff.mpr hm
    rw [hc] at h2
    exact Bool.false_ne_true h2
  · rintro ⟨hc, hw, hr⟩
    refine ⟨⟨?_, hw⟩, hr⟩
    by_cases hb : (namesOf rest).contains n = true
    · exact absurd (List.elem_iff.mp hb) hc
    · simpa using hb

/-!
## The sanitizer removes every `.git` directory and nothing else it
should not (src/index.js lines 202-214)
-/

mutual

theorem noGit_removeGitFolders (t : FSTree) : noGitDirB (removeGitFolders t) = true := by
  match t with
  | .file c => simp [removeGitFolders, noGitDirB]
  | .dir items => simp [removeGitFolders, noGitDirB, noGit_removeGitItems items]

theorem noGit_removeGitItems (items : List (String × FSTree)) :
    noGitItems (removeGitItems items) = true := by
  match items with
  | [] => simp [removeGitItems, noGitItems]
  | (n, .file c) :: rest =>
      simp [removeGitItems, noGitItems, isDirT, noGitDirB, noGit_removeGitItems rest]
  | (n, .dir ds) :: rest =>
      by_cases h : n = ".git"
      · simp [removeGitItems, h, noGit_removeGitItems rest]
      · simp [removeGitItems, h, noGitItems, noGit_removeGitFolders (.dir ds),
          noGit_removeGitItems rest]

end

theorem fileAt_dir_cons (items : List (String × FSTree)) (m : String) (q : List String) :
    fileAt (.dir items) (m :: q) =
      match findEntry items m with
      | some t => fileAt t q
      | none => none := by
  cases hfe : findEntry items m <;> simp [fileAt, lookupPath, hfe]

theorem fileAt_file (c : List Nat) (q : List String) :
    fileAt (.file c) q = if q = [] then some c else none := by
  cases q <;> simp [fileAt, lookupPath]

theorem fileAt_dir_nil (items : List (String × FSTree)) : fileAt (.dir items) [] = none := by
  simp [fileAt, lookupPath]

/-- `copyDirectory`'s loop writes only at the names of the source entries:
other destination entries are untouched. -/
theorem copyEntries_findEntry_frame (es : List (String × FSTree)) :
    ∀ des des' : List (String × FSTree), ∀ m : String,
      copyEntries es des = .ok des' → m ∉ namesOf es →
      findEntry des' m = findEntry des m := by
  induction es with
  | nil =>
      intro des des' m h _
      simp only [copyEntries, Except.ok.injEq] at h
      rw [h]
  | cons hd rest ih =>
      intro des des' m h hm
      obtain ⟨n, t⟩ := hd
      have hmn : m ≠ n := by
        intro he
        exact hm (by simp [namesOf, he])
      have hmr : m ∉ namesOf rest := by
        intro he
        exact hm (by simp [namesOf] at he ⊢; exact Or.inr he)
      cases t with
      | file c =>
          cases hfe : findEntry des n with
          | none =>
              rw [copyEntries, hfe] at h
              rw [ih _ _ _ h hmr, findEntry_setEntry_other _ _ _ _ hmn]
          | some u =>
              cases u with
              | file c0 =>
                  rw [copyEntries, hfe] at h
                  rw [ih _ _ _ h hmr, findEntry_setEntry_other _ _ _ _ hmn]
              | dir ds0 =>
                  rw [copyEntries, hfe] at h
                  simp at h
      | dir ds =>
          cases hcd : copyDirectory (.dir ds) (findEntry des n) with
          | error e =>
              rw [copyEntries, hcd] at h
              simp at h
          | ok d0 =>
              rw [copyEntries, hcd] at h
              rw [ih _ _ _ h hmr, findEntry_setEntry_other _ _ _ _ hmn]


theorem findEntry_cons_same (n : String) (t : FSTree) (rest : List (String × FSTree)) :
    findEntry ((n, t) :: rest) n = some t := by
  simp [findEntry]

theorem findEntry_cons_other (n m : String) (t : FSTree) (rest : List (String × FSTree))
    (h : ¬ n = m) : findEntry ((n, t) :: rest) m = findEntry rest m := by
  simp [findEntry, h]

theorem fileAt_dir_cons_other (n m : String) (t : FSTree) (rest : List (String × FSTree))
    (q : List String) (h : ¬ n = m) :
    fileAt (.dir ((n, t) :: rest)) (m :: q) = fileAt (.dir rest) (m :: q) := by
  rw [fileAt_dir_cons, findEntry_cons_other n m t rest h, ← fileAt_dir_cons]

theorem fileAt_dir_found (items : List (String × FSTree)) (m : String) (t : FSTree)
    (q : List String) (hfe : findEntry items m = some t) :
    fileAt (.dir items) (m :: q) = fileAt t q := by
  simp [fileAt, lookupPath, hfe]

theorem fileAt_dir_notFound (items : List (String × FSTree)) (m : String) (q : List String)
    (hfe : findEntry items m = none) : fileAt (.dir items) (m :: q) = none := by
  simp [fileAt, lookupPath, hfe]

/-!
## Content of a successful `copyDirectory`

Two mutual inductions over the source tree: every source file ends up at
its relative path in the destination (byte-identical), and a pre-existing
destination file either survives untouched or is overwritten by the source
file at the same relative path.
-/

mutual

/-- Every regular file of the (well-formed) source appears, byte-identical,
at the same relative path in the result of a successful `copyDirectory`. -/
theorem copyDirectory_keeps_src_files (src : FSTree) (d? : Option FSTree) (d : FSTree)
    (hwf : wfT src = true) (h : copyDirectory src d? = .ok d) :
    ∀ (q : List String) (c : List Nat), fileAt src q = some c → fileAt d q = some c := by
  intro q c hq
  cases src with
  | file c0 => simp [copyDirectory] at h
  | dir es =>
      cases q with
      | nil => rw [fileAt_dir_nil] at hq; exact absurd hq (by simp)
      | cons m q' =>
          have hwf' : wfItems es = true := by simpa [wfT] using hwf
          cases d? with
          | none =>
              cases hce : copyEntries es [] with
              | error e => rw [copyDirectory, hce] at h; simp at h
              | ok des' =>
                  rw [copyDirectory, hce] at h
                  simp only [Except.ok.injEq] at h
                  subst h
                  exact copyEntries_keeps_src_files es [] des' hwf' hce m q' c hq
          | some du =>
              cases du with
              | file c1 => simp [copyDirectory] at h
              | dir des =>
                  cases hce : copyEntries es des with
                  | error e => rw [copyDirectory, hce] at h; simp at h
                  | ok des' =>
                      rw [copyDirectory, hce] at h
                      simp only [Except.ok.injEq] at h
                      subst h
                      exact copyEntries_keeps_src_files es des des' hwf' hce m q' c hq

/-- Loop version of `copyDirectory_keeps_src_files`. -/
theorem copyEntries_keeps_src_files (es : List (String × FSTree)) :
    ∀ des des' : List (String × FSTree), wfItems es = true → copyEntries es des = .ok des' →
    ∀ (m : String) (q : List String) (c : List Nat),
      fileAt (.dir es) (m :: q) = some c → fileAt (.dir des') (m :: q) = some c := by
  intro des des' hwf h m q c hq
  match es with
  | [] =>
      rw [fileAt_dir_notFound [] m q rfl] at hq
      exact absurd hq (by simp)
  | (n, .file c0) :: rest =>
      obtain ⟨hnin, -, hwfr⟩ := (wfItems_cons n _ rest).mp hwf
      cases hfe : findEntry des n with
      | some u =>
          cases u with
          | dir ds0 => rw [copyEntries, hfe] at h; simp at h
          | file c1 =>
              rw [copyEntries, hfe] at h
              by_cases hnm : n = m
              · subst hnm
                rw [fileAt_dir_found _ _ _ _ (findEntry_cons_same n _ rest)] at hq
                rw [fileAt_file] at hq
                by_cases hq0 : q = []
                · subst hq0
                  simp only [reduceIte, Option.some.injEq] at hq
                  subst hq
                  rw [fileAt_dir_found _ _ _ _
                    (by rw [copyEntries_findEntry_frame rest _ _ n h hnin,
                            findEntry_setEntry_same])]
                  rw [fileAt_file]
                  simp
                · rw [if_neg hq0] at hq; exact absurd hq (by simp)
              · rw [fileAt_dir_cons, findEntry_cons_other n m _ rest hnm,
                  ← fileAt_dir_cons] at hq
                exact copyEntries_keeps_src_files rest _ des' hwfr h m q c hq
      | none =>
          rw [copyEntries, hfe] at h
          by_cases hnm : n = m
          · subst hnm
            rw [fileAt_dir_found _ _ _ _ (findEntry_cons_same n _ rest)] at hq
            rw [fileAt_file] at hq
            by_cases hq0 : q = []
            · subst hq0
              simp only [reduceIte, Option.some.injEq] at hq
              subst hq
              rw [fileAt_dir_found _ _ _ _
                (by rw [copyEntries_findEntry_frame rest _ _ n h hnin,
                        findEntry_setEntry_same])]
              rw [fileAt_file]
              simp
            · rw [if_neg hq0] at hq; exact absurd hq (by simp)
          · rw [fileAt_dir_cons, findEntry_cons_other n m _ rest hnm,
              ← fileAt_dir_cons] at hq
            exact copyEntries_keeps_src_files rest _ des' hwfr h m q c hq
  | (n, .dir ds) :: rest =>
      obtain ⟨hnin, hwfd, hwfr⟩ := (wfItems_cons n _ rest).mp hwf
      cases hcd : copyDirectory (.dir ds) (findEntry des n) with
      | error e => rw [copyEntries, hcd] at h; simp at h
      | ok d0 =>
          rw [copyEntries, hcd] at h
          by_cases hnm : n = m
          · subst hnm
            rw [fileAt_dir_found _ _ _ _ (findEntry_cons_same n _ rest)] at hq
            have hd0 : fileAt d0 q = some c :=
              copyDirectory_keeps_src_files (.dir ds) (findEntry des n) d0 hwfd hcd q c hq
            rw [fileAt_dir_found _ _ _ _
              (by rw [copyEntries_findEntry_frame rest _ _ n h hnin,
                      findEntry_setEntry_same])]
            exact hd0
          · rw [fileAt_dir_cons, findEntry_cons_other n m _ rest hnm,
              ← fileAt_dir_cons] at hq
            exact copyEntries_keeps_src_files rest _ des' hwfr h m q c hq

end

mutual

/-- A regular file already present at the destination of a successful
`copyDirectory` survives, except that a source file at the same relative
path overwrites its bytes (`Option.getD`: the source bytes when the source
has a file there, the old bytes otherwise). -/
theorem copyDirectory_dest_file (src dest d : FSTree)
    (hwf : wfT src = true) (h : copyDirectory src (some dest) = .ok d) :
    ∀ (q : List String) (c : List Nat), fileAt dest q = some c →
      fileAt d q = some ((fileAt src q).getD c) := by
  intro q c hq
  cases src with
  | file c0 => simp [copyDirectory] at h
  | dir es =>
      cases dest with
      | file cf => simp [copyDirectory] at h
      | dir des =>
          cases q with
          | nil => rw [fileAt_dir_nil] at hq; exact absurd hq (by simp)
          | cons m q' =>
              have hwf' : wfItems es = true := by simpa [wfT] using hwf
              cases hce : copyEntries es des with
              | error e => rw [copyDirectory, hce] at h; simp at h
              | ok des' =>
                  rw [copyDirectory, hce] at h
                  simp only [Except.ok.injEq] at h
                  subst h
                  exact copyEntries_dest_file es des des' hwf' hce m q' c hq

/-- Loop version of `copyDirectory_dest_file`. -/
theorem copyEntries_dest_file (es : List (String × FSTree)) :
    ∀ des des' : List (String × FSTree), wfItems es = true → copyEntries es des = .ok des' →
    ∀ (m : String) (q : List String) (c : List Nat),
      fileAt (.dir des) (m :: q) = some c →
      fileAt (.dir des') (m :: q) = some ((fileAt (.dir es) (m :: q)).getD c) := by
  intro des des' hwf h m q c hq
  match es with
  | [] =>
      simp only [copyEntries, Except.ok.injEq] at h
      subst h
      rw [fileAt_dir_notFound [] m q rfl]
      simpa using hq
  | (n, .file c0) :: rest =>
      obtain ⟨hnin, -, hwfr⟩ := (wfItems_cons n _ rest).mp hwf
      cases hfe : findEntry des n with
      | some u =>
          cases u with
          | dir ds0 => rw [copyEntries, hfe] at h; simp at h
          | file c1 =>
              rw [copyEntries, hfe] at h
              by_cases hnm : n = m
              · subst hnm
                rw [fileAt_dir_found _ _ _ _ hfe, fileAt_file] at hq
                by_cases hq0 : q = []
                · subst hq0
                  simp only [reduceIte, Option.some.injEq] at hq
                  rw [fileAt_dir_found _ _ _ _
                    (by rw [copyEntries_findEntry_frame rest _ _ n h hnin,
                            findEntry_setEntry_same]),
                    fileAt_dir_found _ _ _ _ (findEntry_cons_same n _ rest)]
                  simp [fileAt_file]
                · rw [if_neg hq0] at hq; exact absurd hq (by simp)
              · cases hfm : findEntry des m with
                | none => rw [fileAt_dir_notFound _ _ _ hfm] at hq; exact absurd hq (by simp)
                | some t =>
                    have hq' : fileAt (.dir (setEntry des n (.file c0))) (m :: q) = some c := by
                      rw [fileAt_dir_found _ _ _ _
                        (by rw [findEntry_setEntry_other _ _ _ _ (fun he => hnm he.symm)]
                            exact hfm)]
                      rw [fileAt_dir_found _ _ _ _ hfm] at hq
                      exact hq
                    rw [fileAt_dir_cons_other n m _ rest q hnm]
                    exact copyEntries_dest_file rest _ des' hwfr h m q c hq'
      | none =>
          rw [copyEntries, hfe] at h
          by_cases hnm : n = m
          · subst hnm
            rw [fileAt_dir_notFound _ _ _ hfe] at hq
            exact absurd hq (by simp)
          · cases hfm : findEntry des m with
            | none => rw [fileAt_dir_notFound _ _ _ hfm] at hq; exact absurd hq (by simp)
            | some t =>
                have hq' : fileAt (.dir (setEntry des n (.file c0))) (m :: q) = some c := by
                  rw [fileAt_dir_found _ _ _ _
                    (by rw [findEntry_setEntry_other _ _ _ _ (fun he => hnm he.symm)]
                        exact hfm)]
                  rw [fileAt_dir_found _ _ _ _ hfm] at hq
                  exact hq
                rw [fileAt_dir_cons_other n m _ rest q hnm]
                exact copyEntries_dest_file rest _ des' hwfr h m q c hq'
  | (n, .dir ds) :: rest =>
      obtain ⟨hnin, hwfd, hwfr⟩ := (wfItems_cons n _ rest).mp hwf
      cases hcd : copyDirectory (.dir ds) (findEntry des n) with
      | error e => rw [copyEntries, hcd] at h; simp at h
      | ok d0 =>
          rw [copyEntries, hcd] at h
          by_cases hnm : n = m
          · subst hnm
            cases hfe : findEntry des n with
            | none => rw [fileAt_dir_notFound _ _ _ hfe] at hq; exact absurd hq (by simp)
            | some u =>
                cases u with
                | file cf => rw [hfe] at hcd; simp [copyDirectory] at hcd
                | dir dd =>
                    rw [hfe] at hcd
                    rw [fileAt_dir_found _ _ _ _ hfe] at hq
                    have hd0 : fileAt d0 q = some ((fileAt (.dir ds) q).getD c) :=
                      copyDirectory_dest_file (.dir ds) (.dir dd) d0 hwfd hcd q c hq
                    rw [fileAt_dir_found _ _ _ _
                      (by rw [copyEntries_findEntry_frame rest _ _ n h hnin,
                              findEntry_setEntry_same]),
                      fileAt_dir_found _ _ _ _ (findEntry_cons_same n _ rest)]
                    exact hd0
          · cases hfm : findEntry des m with
            | none => rw [fileAt_dir_notFound _ _ _ hfm] at hq; exact absurd hq (by simp)
            | some t =>
                have hq' : fileAt (.dir (setEntry des n d0)) (m :: q) = some c := by
                  rw [fileAt_dir_found _ _ _ _
                    (by rw [findEntry_setEntry_other _ _ _ _ (fun he => hnm he.symm)]
                        exact hfm)]
                  rw [fileAt_dir_found _ _ _ _ hfm] at hq
                  exact hq
                rw [fileAt_dir_cons_other n m _ rest q hnm]
                exact copyEntries_dest_file rest _ des' hwfr h m q c hq'

end

/-!
## Lemmas about one copy into the repository root
-/

/-- A successful copy of `src` to entry `n` of the repository root puts
every file of `src` at `n :: path`. -/
theorem copyIntoRepo_keeps_src_files (repo : FSTree) (n : String) (src repo' : FSTree)
    (hwf : wfT src = true) (h : copyIntoRepo repo n src = .ok repo') :
    ∀ (q : List String) (c : List Nat), fileAt src q = some c →
      fileAt repo' (n :: q) = some c := by
  intro q c hq
  cases repo with
  | file _ => simp [copyIntoRepo] at h
  | dir res =>
      cases hcd : copyDirectory src (findEntry res n) with
      | error e => rw [copyIntoRepo, hcd] at h; simp at h
      | ok d =>
          rw [copyIntoRepo, hcd] at h
          simp only [Except.ok.injEq] at h
          subst h
          rw [fileAt_dir_found _ _ _ _ (findEntry_setEntry_same res n d)]
          exact copyDirectory_keeps_src_files src (findEntry res n) d hwf hcd q c hq

/-- A copy into entry `n` leaves every other top-level entry unchanged. -/
theorem copyIntoRepo_frame (repo : FSTree) (n : String) (src repo' : FSTree)
    (h : copyIntoRepo repo n src = .ok repo') :
    ∀ (m : String) (q : List String), ¬ n = m → fileAt repo' (m :: q) = fileAt repo (m :: q) := by
  intro m q hnm
  cases repo with
  | file _ => simp [copyIntoRepo] at h
  | dir res =>
      cases hcd : copyDirectory src (findEntry res n) with
      | error e => rw [copyIntoRepo, hcd] at h; simp at h
      | ok d =>
          rw [copyIntoRepo, hcd] at h
          simp only [Except.ok.injEq] at h
          subst h
          cases hfm : findEntry res m with
          | none =>
              rw [fileAt_dir_notFound _ _ _ hfm,
                fileAt_dir_notFound _ _ _ (by
                  rw [findEntry_setEntry_other _ _ _ _ (fun he => hnm he.symm)]
                  exact hfm)]
          | some t =>
              rw [fileAt_dir_found _ _ _ _ hfm,
                fileAt_dir_found _ _ _ _ (by
                  rw [findEntry_setEntry_other _ _ _ _ (fun he => hnm he.symm)]
                  exact hfm)]

/-- A file already in the repository below entry `n` survives a successful
copy into `n`, unless the (well-formed) copied directory has a file at the
same relative path, whose bytes then win. -/
theorem copyIntoRepo_dest_file (repo : FSTree) (n : String) (src repo' : FSTree)
    (hwf : wfT src = true) (h : copyIntoRepo repo n src = .ok repo') :
    ∀ (q : List String) (c : List Nat), fileAt repo (n :: q) = some c →
      fileAt repo' (n :: q) = some ((fileAt src q).getD c) := by
  intro q c hq
  cases repo with
  | file _ => simp [copyIntoRepo] at h
  | dir res =>
      cases hcd : copyDirectory src (findEntry res n) with
      | error e => rw [copyIntoRepo, hcd] at h; simp at h
      | ok d =>
          rw [copyIntoRepo, hcd] at h
          simp only [Except.ok.injEq] at h
          subst h
          cases hfe : findEntry res n with
          | none => rw [fileAt_dir_notFound _ _ _ hfe] at hq; exact absurd hq (by simp)
          | some u =>
              cases u with
              | file cf =>
                  rw [hfe] at hcd
                  cases src <;> simp [copyDirectory] at hcd
              | dir dd =>
                  rw [hfe] at hcd
                  rw [fileAt_dir_found _ _ _ _ hfe] at hq
                  rw [fileAt_dir_found _ _ _ _ (findEntry_setEntry_same res n d)]
                  exact copyDirectory_dest_file src (.dir dd) d hwf hcd q c hq

/-!
## The selector walk is the sequence of copies of its matches
-/

theorem runCopies_append (l1 l2 : List (List String × String × FSTree)) :
    ∀ repo : FSTree, runCopies repo (l1 ++ l2) =
      match runCopies repo l1 with
      | .ok r => runCopies r l2
      | .error e => .error e := by
  induction l1 with
  | nil => intro repo; simp [runCopies]
  | cons hd tl ih =>
      intro repo
      obtain ⟨p, n, d⟩ := hd
      cases hcr : copyIntoRepo repo n d with
      | error e => simp [runCopies, hcr]
      | ok r => simp [runCopies, hcr, ih r]

/-- `runCopies` ignores the recorded path prefixes: the copy destination
only depends on the matched directory's name. -/
theorem runCopies_map_cons (n0 : String) (l : List (List String × String × FSTree)) :
    ∀ repo : FSTree,
      runCopies repo (l.map (fun m => (n0 :: m.1, m.2.1, m.2.2))) = runCopies repo l := by
  induction l with
  | nil => intro repo; simp [runCopies]
  | cons hd tl ih =>
      intro repo
      obtain ⟨p, n, d⟩ := hd
      cases hcr : copyIntoRepo repo n d with
      | error e => simp [runCopies, hcr]
      | ok r => simp [runCopies, hcr, ih r]

mutual

/-- `findAndCopyQFolders` performs exactly the copies of its matches, in
walk order. -/
theorem findAndCopy_eq_runCopies (allow : List String) (t : FSTree) :
    ∀ repo : FSTree, isDirT t = true →
      findAndCopyQFolders (some allow) t repo = runCopies repo (foundMatches allow t) := by
  intro repo hd
  match t with
  | .file _ => simp [isDirT] at hd
  | .dir items =>
      rw [findAndCopyQFolders, foundMatches]
      exact facItems_eq_runCopies allow items repo

/-- Loop version of `findAndCopy_eq_runCopies`. -/
theorem facItems_eq_runCopies (allow : List String) (items : List (String × FSTree)) :
    ∀ repo : FSTree,
      facItems (some allow) items repo = runCopies repo (fmItems allow items) := by
  intro repo
  match items with
  | [] => simp [facItems, fmItems, runCopies]
  | (n, .file c) :: rest =>
      rw [facItems, fmItems]
      exact facItems_eq_runCopies allow rest repo
  | (n, .dir ds) :: rest =>
      by_cases hn : n ∈ allow
      · rw [facItems, fmItems, if_pos hn, if_pos hn]
        cases hcr : copyIntoRepo repo n (.dir ds) with
        | error e => simp [runCopies, hcr]
        | ok r => simp only [runCopies, hcr]; exact facItems_eq_runCopies allow rest r
      · rw [facItems, fmItems, if_neg hn, if_neg hn, runCopies_append]
        rw [runCopies_map_cons n (foundMatches allow (.dir ds)) repo]
        rw [findAndCopy_eq_runCopies allow (.dir ds) repo (by simp [isDirT])]
        cases hrc : runCopies repo (foundMatches allow (.dir ds)) with
        | error e => simp
        | ok r => exact facItems_eq_runCopies allow rest r

end

/-!
## Which directories the selector walk finds

`foundMatches` is characterized: a triple `(pre, n, D)` is found exactly
when `D` is the directory at path `pre ++ [n]`, its name `n` is
allow-listed, and no name along the way there is allow-listed (a matching
directory is not searched further, a non-matching one is).
-/

theorem findEntry_none_of_not_mem (items : List (String × FSTree)) (n : String)
    (h : n ∉ namesOf items) : findEntry items n = none := by
  induction items with
  | nil => simp [findEntry]
  | cons hd rest ih =>
      obtain ⟨m, t⟩ := hd
      have hm : ¬ m = n := by
        intro he
        exact h (by simp [namesOf, he])
      rw [findEntry_cons_other m n t rest hm]
      exact ih (fun he => h (by simp [namesOf] at he ⊢; exact Or.inr he))

theorem lookupPath_dir_found (items : List (String × FSTree)) (k : String) (t : FSTree)
    (p : List String) (hfe : findEntry items k = some t) :
    lookupPath (.dir items) (k :: p) = lookupPath t p := by
  simp [lookupPath, hfe]

theorem lookupPath_dir_notFound (items : List (String × FSTree)) (k : String)
    (p : List String) (hfe : findEntry items k = none) :
    lookupPath (.dir items) (k :: p) = none := by
  simp [lookupPath, hfe]

theorem lookupPath_dir_entry_eq (items1 items2 : List (String × FSTree)) (k : String)
    (p : List String) (h : findEntry items1 k = findEntry items2 k) :
    lookupPath (.dir items1) (k :: p) = lookupPath (.dir items2) (k :: p) := by
  cases hfe : findEntry items2 k with
  | none => rw [lookupPath_dir_notFound _ _ _ (h.trans hfe), lookupPath_dir_notFound _ _ _ hfe]
  | some t => rw [lookupPath_dir_found _ _ _ _ (h.trans hfe), lookupPath_dir_found _ _ _ _ hfe]

theorem lookupPath_file_append (c : List Nat) (p : List String) (n : String) :
    lookupPath (.file c) (p ++ [n]) = none := by
  cases p <;> simp [lookupPath]

/-- A triple found among an entry list starts (path head, or its name when
the path is empty) with the name of one of the entries. -/
theorem fmItems_mem_name (allow : List String) (items : List (String × FSTree)) :
    ∀ pre n D, (pre, n, D) ∈ fmItems allow items → pre.headD n ∈ namesOf items := by
  induction items with
  | nil => intro pre n D h; simp [fmItems] at h
  | cons hd rest ih =>
      intro pre n D h
      obtain ⟨m0, t0⟩ := hd
      cases t0 with
      | file c0 =>
          rw [fmItems] at h
          have := ih pre n D h
          simp [namesOf] at this ⊢
          exact Or.inr this
      | dir ds0 =>
          rw [fmItems] at h
          by_cases hm0 : m0 ∈ allow
          · rw [if_pos hm0, List.mem_cons] at h
            rcases h with heq | h
            · obtain ⟨h1, h2, -⟩ : pre = [] ∧ n = m0 ∧ D = FSTree.dir ds0 := by
                simpa [Prod.ext_iff] using heq
              subst h1; subst h2
              simp [namesOf]
            · have := ih pre n D h
              simp [namesOf] at this ⊢
              exact Or.inr this
          · rw [if_neg hm0, List.mem_append] at h
            rcases h with h | h
            · obtain ⟨x, -, hx⟩ := List.mem_map.mp h
              obtain ⟨h1, -, -⟩ : m0 :: x.1 = pre ∧ x.2.1 = n ∧ x.2.2 = D := by
                simpa [Prod.ext_iff] using hx
              simp [namesOf, ← h1]
            · have := ih pre n D h
              simp [namesOf] at this ⊢
              exact Or.inr this


mutual

/-- Characterization of the matches of the selector walk over a
well-formed tree: exactly the allow-list-named directories none of whose
ancestors (inside the walked tree) is allow-list-named. -/
theorem mem_foundMatches_iff (allow : List String) (t : FSTree) :
    ∀ (pre : List String) (n : String) (D : FSTree), wfT t = true →
      ((pre, n, D) ∈ foundMatches allow t ↔
        lookupPath t (pre ++ [n]) = some D ∧ isDirT D = true ∧ n ∈ allow ∧
          ∀ m ∈ pre, m ∉ allow) := by
  intro pre n D hwf
  match t with
  | .file c =>
      constructor
      · intro h; simp [foundMatches] at h
      · rintro ⟨hl, -, -, -⟩
        rw [lookupPath_file_append] at hl
        exact absurd hl (by simp)
  | .dir items =>
      rw [foundMatches]
      exact mem_fmItems_iff allow items pre n D (by simpa [wfT] using hwf)

/-- Loop version of `mem_foundMatches_iff`. -/
theorem mem_fmItems_iff (allow : List String) (items : List (String × FSTree)) :
    ∀ (pre : List String) (n : String) (D : FSTree), wfItems items = true →
      ((pre, n, D) ∈ fmItems allow items ↔
        lookupPath (.dir items) (pre ++ [n]) = some D ∧ isDirT D = true ∧ n ∈ allow ∧
          ∀ m ∈ pre, m ∉ allow) := by
  intro pre n D hwf
  match items with
  | [] =>
      constructor
      · intro h; simp [fmItems] at h
      · rintro ⟨hl, -, -, -⟩
        cases pre with
        | nil => rw [List.nil_append, lookupPath_dir_notFound [] n [] rfl] at hl
                 exact absurd hl (by simp)
        | cons k pre' =>
            rw [List.cons_append, lookupPath_dir_notFound [] k _ rfl] at hl
            exact absurd hl (by simp)
  | (m0, .file c0) :: rest =>
      obtain ⟨hnin, -, hwfr⟩ := (wfItems_cons m0 _ rest).mp hwf
      rw [fmItems, mem_fmItems_iff allow rest pre n D hwfr]
      cases pre with
      | nil =>
          by_cases hk : m0 = n
          · subst hk
            constructor
            · rintro ⟨hl, -, -, -⟩
              rw [List.nil_append,
                lookupPath_dir_notFound rest m0 [] (findEntry_none_of_not_mem rest m0 hnin)] at hl
              exact absurd hl (by simp)
            · rintro ⟨hl, hd, -, -⟩
              rw [List.nil_append,
                lookupPath_dir_found _ _ _ _ (findEntry_cons_same m0 _ rest)] at hl
              simp only [lookupPath, Option.some.injEq] at hl
              subst hl
              simp [isDirT] at hd
          · constructor
            · rintro ⟨hl, hd, hn2, hp⟩
              exact ⟨(lookupPath_dir_entry_eq _ rest n []
                (findEntry_cons_other m0 n _ rest hk)).trans hl, hd, hn2, hp⟩
            · rintro ⟨hl, hd, hn2, hp⟩
              exact ⟨(lookupPath_dir_entry_eq _ rest n []
                (findEntry_cons_other m0 n _ rest hk)).symm.trans hl, hd, hn2, hp⟩
      | cons k pre' =>
          by_cases hk : m0 = k
          · subst hk
            constructor
            · rintro ⟨hl, -, -, -⟩
              rw [List.cons_append,
                lookupPath_dir_notFound rest m0 _ (findEntry_none_of_not_mem rest m0 hnin)] at hl
              exact absurd hl (by simp)
            · rintro ⟨hl, -, -, -⟩
              rw [List.cons_append,
                lookupPath_dir_found _ _ _ _ (findEntry_cons_same m0 _ rest),
                lookupPath_file_append] at hl
              exact absurd hl (by simp)
          · constructor
            · rintro ⟨hl, hd, hn2, hp⟩
              exact ⟨(lookupPath_dir_entry_eq _ rest k (pre' ++ [n])
                (findEntry_cons_other m0 k _ rest hk)).trans hl, hd, hn2, hp⟩
            · rintro ⟨hl, hd, hn2, hp⟩
              exact ⟨(lookupPath_dir_entry_eq _ rest k (pre' ++ [n])
                (findEntry_cons_other m0 k _ rest hk)).symm.trans hl, hd, hn2, hp⟩
  | (m0, .dir ds0) :: rest =>
      obtain ⟨hnin, hwfd, hwfr⟩ := (wfItems_cons m0 _ rest).mp hwf
      by_cases hm0 : m0 ∈ allow
      · rw [fmItems, if_pos hm0, List.mem_cons, mem_fmItems_iff allow rest pre n D hwfr]
        cases pre with
        | nil =>
            by_cases hk : m0 = n
            · subst hk
              constructor
              · rintro (heq | ⟨hl, -, -, -⟩)
                · obtain ⟨-, -, h3⟩ : ([] : List String) = [] ∧ m0 = m0 ∧ D = FSTree.dir ds0 := by
                    simpa [Prod.ext_iff] using heq
                  subst h3
                  refine ⟨?_, by simp [isDirT], hm0, by simp⟩
                  rw [List.nil_append,
                    lookupPath_dir_found _ _ _ _ (findEntry_cons_same m0 _ rest)]
                  simp [lookupPath]
                · rw [List.nil_append,
                    lookupPath_dir_notFound rest m0 []
                      (findEntry_none_of_not_mem rest m0 hnin)] at hl
                  exact absurd hl (by simp)
              · rintro ⟨hl, -, -, -⟩
                left
                rw [List.nil_append,
                  lookupPath_dir_found _ _ _ _ (findEntry_cons_same m0 _ rest)] at hl
                simp only [lookupPath, Option.some.injEq] at hl
                simp [hl]
            · constructor
              · rintro (heq | ⟨hl, hd, hn2, hp⟩)
                · obtain ⟨-, h2, -⟩ : ([] : List String) = [] ∧ n = m0 ∧ D = FSTree.dir ds0 := by
                    simpa [Prod.ext_iff] using heq
                  exact absurd h2.symm hk
                · refine ⟨?_, hd, hn2, hp⟩
                  rw [List.nil_append] at hl ⊢
                  rw [lookupPath_dir_entry_eq _ rest n [] (findEntry_cons_other m0 n _ rest hk)]
                  exact hl
              · rintro ⟨hl, hd, hn2, hp⟩
                right
                refine ⟨?_, hd, hn2, hp⟩
                rw [List.nil_append] at hl ⊢
                rw [lookupPath_dir_entry_eq _ rest n []
                  (findEntry_cons_other m0 n _ rest hk)] at hl
                exact hl
        | cons k pre' =>
            by_cases hk : m0 = k
            · subst hk
              constructor
              · rintro (heq | ⟨hl, -, -, -⟩)
                · exact absurd heq (by simp [Prod.ext_iff])
                · rw [List.cons_append,
                    lookupPath_dir_notFound rest m0 _
                      (findEntry_none_of_not_mem rest m0 hnin)] at hl
                  exact absurd hl (by simp)
              · rintro ⟨-, -, -, hp⟩
                exact absurd hm0 (hp m0 (by simp))
            · constructor
              · rintro (heq | ⟨hl, hd, hn2, hp⟩)
                · exact absurd heq (by simp [Prod.ext_iff])
                · refine ⟨?_, hd, hn2, hp⟩
                  rw [List.cons_append] at hl ⊢
                  rw [lookupPath_dir_entry_eq _ rest k _ (findEntry_cons_other m0 k _ rest hk)]
                  exact hl
              · rintro ⟨hl, hd, hn2, hp⟩
                right
                refine ⟨?_, hd, hn2, hp⟩
                rw [List.cons_append] at hl ⊢
                rw [lookupPath_dir_entry_eq _ rest k _
                  (findEntry_cons_other m0 k _ rest hk)] at hl
                exact hl
      · rw [fmItems, if_neg hm0, List.mem_append, mem_fmItems_iff allow rest pre n D hwfr]
        cases pre with
        | nil =>
            by_cases hk : m0 = n
            · subst hk
              constructor
              · rintro (hmap | ⟨hl, -, -, -⟩)
                · obtain ⟨x, -, he⟩ := List.mem_map.mp hmap
                  obtain ⟨x1, x2, x3⟩ := x
                  simp only [Prod.mk.injEq] at he
                  exact absurd he.1 (by simp)
                · rw [List.nil_append,
                    lookupPath_dir_notFound rest m0 []
                      (findEntry_none_of_not_mem rest m0 hnin)] at hl
                  exact absurd hl (by simp)
              · rintro ⟨-, -, hn2, -⟩
                exact absurd hn2 hm0
            · constructor
              · rintro (hmap | ⟨hl, hd, hn2, hp⟩)
                · obtain ⟨x, -, he⟩ := List.mem_map.mp hmap
                  obtain ⟨x1, x2, x3⟩ := x
                  simp only [Prod.mk.injEq] at he
                  exact absurd he.1 (by simp)
                · refine ⟨?_, hd, hn2, hp⟩
                  rw [List.nil_append] at hl ⊢
                  rw [lookupPath_dir_entry_eq _ rest n [] (findEntry_cons_other m0 n _ rest hk)]
                  exact hl
              · rintro ⟨hl, hd, hn2, hp⟩
                right
                refine ⟨?_, hd, hn2, hp⟩
                rw [List.nil_append] at hl ⊢
                rw [lookupPath_dir_entry_eq _ rest n []
                  (findEntry_cons_other m0 n _ rest hk)] at hl
                exact hl
        | cons k pre' =>
            by_cases hk : m0 = k
            · subst hk
              have htree := mem_foundMatches_iff allow (.dir ds0) pre' n D hwfd
              constructor
              · rintro (hmap | ⟨hl, -, -, -⟩)
                · obtain ⟨x, hx, he⟩ := List.mem_map.mp hmap
                  obtain ⟨x1, x2, x3⟩ := x
                  simp only [Prod.mk.injEq, List.cons.injEq] at he
                  obtain ⟨⟨-, he1⟩, he2, he3⟩ := he
                  subst he1; subst he2; subst he3
                  obtain ⟨hl, hd, hn2, hp⟩ := htree.mp hx
                  refine ⟨?_, hd, hn2, ?_⟩
                  · rw [List.cons_append,
                      lookupPath_dir_found _ _ _ _ (findEntry_cons_same m0 _ rest)]
                    exact hl
                  · intro m hm
                    rcases List.mem_cons.mp hm with rfl | hm'
                    · exact hm0
                    · exact hp m hm'
                · rw [List.cons_append,
                    lookupPath_dir_notFound rest m0 _
                      (findEntry_none_of_not_mem rest m0 hnin)] at hl
                  exact absurd hl (by simp)
              · rintro ⟨hl, hd, hn2, hp⟩
                left
                rw [List.cons_append,
                  lookupPath_dir_found _ _ _ _ (findEntry_cons_same m0 _ rest)] at hl
                refine List.mem_map.mpr ⟨(pre', n, D), ?_, rfl⟩
                exact htree.mpr ⟨hl, hd, hn2, fun m hm => hp m (by simp [hm])⟩
            · constructor
              · rintro (hmap | ⟨hl, hd, hn2, hp⟩)
                · obtain ⟨x, -, he⟩ := List.mem_map.mp hmap
                  obtain ⟨x1, x2, x3⟩ := x
                  simp only [Prod.mk.injEq, List.cons.injEq] at he
                  exact absurd he.1.1 hk
                · refine ⟨?_, hd, hn2, hp⟩
                  rw [List.cons_append] at hl ⊢
                  rw [lookupPath_dir_entry_eq _ rest k _ (findEntry_cons_other m0 k _ rest hk)]
                  exact hl
              · rintro ⟨hl, hd, hn2, hp⟩
                right
                refine ⟨?_, hd, hn2, hp⟩
                rw [List.cons_append] at hl ⊢
                rw [lookupPath_dir_entry_eq _ rest k _
                  (findEntry_cons_other m0 k _ rest hk)] at hl
                exact hl

end

mutual

/-- Subtrees found by the walk over a well-formed tree are well-formed. -/
theorem wfT_foundMatches (allow : List String) (t : FSTree) :
    ∀ pre n D, wfT t = true → (pre, n, D) ∈ foundMatches allow t → wfT D = true := by
  intro pre n D hwf h
  match t with
  | .file c => simp [foundMatches] at h
  | .dir items =>
      rw [foundMatches] at h
      exact wfT_fmItems allow items pre n D (by simpa [wfT] using hwf) h

/-- Loop version of `wfT_foundMatches`. -/
theorem wfT_fmItems (allow : List String) (items : List (String × FSTree)) :
    ∀ pre n D, wfItems items = true → (pre, n, D) ∈ fmItems allow items → wfT D = true := by
  intro pre n D hwf h
  match items with
  | [] => simp [fmItems] at h
  | (m0, .file c0) :: rest =>
      obtain ⟨-, -, hwfr⟩ := (wfItems_cons m0 _ rest).mp hwf
      rw [fmItems] at h
      exact wfT_fmItems allow rest pre n D hwfr h
  | (m0, .dir ds0) :: rest =>
      obtain ⟨-, hwfd, hwfr⟩ := (wfItems_cons m0 _ rest).mp hwf
      rw [fmItems] at h
      by_cases hm0 : m0 ∈ allow
      · rw [if_pos hm0, List.mem_cons] at h
        rcases h with heq | h
        · obtain ⟨-, -, h3⟩ : pre = [] ∧ n = m0 ∧ D = FSTree.dir ds0 := by
            simpa [Prod.ext_iff] using heq
          subst h3
          exact hwfd
        · exact wfT_fmItems allow rest pre n D hwfr h
      · rw [if_neg hm0, List.mem_append] at h
        rcases h with h | h
        · obtain ⟨x, hx, he⟩ := List.mem_map.mp h
          obtain ⟨x1, x2, x3⟩ := x
          simp only [Prod.mk.injEq] at he
          obtain ⟨-, he2, he3⟩ := he
          exact he3 ▸ wfT_foundMatches allow (.dir ds0) x1 x2 x3 hwfd hx
        · exact wfT_fmItems allow rest pre n D hwfr h

end

theorem noGitItems_cons (n : String) (t : FSTree) (rest : List (String × FSTree)) :
    noGitItems ((n, t) :: rest) = true ↔
      ((isDirT t = true → ¬ n = ".git") ∧ noGitDirB t = true ∧ noGitItems rest = true) := by
  simp only [noGitItems, Bool.and_eq_true, Bool.or_eq_true, decide_eq_true_eq]
  constructor
  · rintro ⟨⟨h1, h2⟩, h3⟩
    refine ⟨?_, h2, h3⟩
    intro hd
    rcases h1 with h1 | h1
    · rw [hd] at h1; exact absurd h1 (by simp)
    · exact h1
  · rintro ⟨h1, h2, h3⟩
    refine ⟨⟨?_, h2⟩, h3⟩
    cases ht : isDirT t with
    | false => exact Or.inl rfl
    | true => exact Or.inr (h1 ht)

mutual

/-- Subtrees found by the walk over a `.git`-free tree are `.git`-free. -/
theorem noGit_foundMatches (allow : List String) (t : FSTree) :
    ∀ pre n D, noGitDirB t = true → (pre, n, D) ∈ foundMatches allow t →
      noGitDirB D = true := by
  intro pre n D hng h
  match t with
  | .file c => simp [foundMatches] at h
  | .dir items =>
      rw [foundMatches] at h
      exact noGit_fmItems allow items pre n D (by simpa [noGitDirB] using hng) h

/-- Loop version of `noGit_foundMatches`. -/
theorem noGit_fmItems (allow : List String) (items : List (String × FSTree)) :
    ∀ pre n D, noGitItems items = true → (pre, n, D) ∈ fmItems allow items →
      noGitDirB D = true := by
  intro pre n D hng h
  match items with
  | [] => simp [fmItems] at h
  | (m0, .file c0) :: rest =>
      obtain ⟨-, -, hngr⟩ := (noGitItems_cons m0 _ rest).mp hng
      rw [fmItems] at h
      exact noGit_fmItems allow rest pre n D hngr h
  | (m0, .dir ds0) :: rest =>
      obtain ⟨-, hngd, hngr⟩ := (noGitItems_cons m0 _ rest).mp hng
      rw [fmItems] at h
      by_cases hm0 : m0 ∈ allow
      · rw [if_pos hm0, List.mem_cons] at h
        rcases h with heq | h
        · obtain ⟨-, -, h3⟩ : pre = [] ∧ n = m0 ∧ D = FSTree.dir ds0 := by
            simpa [Prod.ext_iff] using heq
          subst h3
          exact hngd
        · exact noGit_fmItems allow rest pre n D hngr h
      · rw [if_neg hm0, List.mem_append] at h
        rcases h with h | h
        · obtain ⟨x, hx, he⟩ := List.mem_map.mp h
          obtain ⟨x1, x2, x3⟩ := x
          simp only [Prod.mk.injEq] at he
          obtain ⟨-, he2, he3⟩ := he
          exact he3 ▸ noGit_foundMatches allow (.dir ds0) x1 x2 x3 hngd hx
        · exact noGit_fmItems allow rest pre n D hngr h

end

/-- Running a list of copies: a file put at `n :: q` stays there; its final
bytes come from the last copied directory named `n` having a file at `q`
(if none does, the bytes are untouched). -/
theorem runCopies_track (l : List (List String × String × FSTree)) :
    ∀ (r R : FSTree) (n : String) (q : List String) (c : List Nat),
      runCopies r l = .ok R → (∀ x ∈ l, wfT x.2.2 = true) → fileAt r (n :: q) = some c →
      fileAt R (n :: q) = some c ∨
        ∃ pre' D' c', (pre', n, D') ∈ l ∧ fileAt D' q = some c' ∧
          fileAt R (n :: q) = some c' := by
  induction l with
  | nil =>
      intro r R n q c h _ h0
      simp only [runCopies, Except.ok.injEq] at h
      subst h
      exact Or.inl h0
  | cons hd tl ih =>
      intro r R n q c h hwf h0
      obtain ⟨p0, n0, D0⟩ := hd
      cases hcr : copyIntoRepo r n0 D0 with
      | error e => rw [runCopies, hcr] at h; simp at h
      | ok r1 =>
          rw [runCopies, hcr] at h
          have hwf0 : wfT D0 = true := hwf (p0, n0, D0) (by simp)
          have hwftl : ∀ x ∈ tl, wfT x.2.2 = true := fun x hx => hwf x (by simp [hx])
          by_cases hn0 : n0 = n
          · subst hn0
            have h1 := copyIntoRepo_dest_file r n0 D0 r1 hwf0 hcr q c h0
            cases hD0 : fileAt D0 q with
            | some c0 =>
                rw [hD0] at h1
                simp only [Option.getD_some] at h1
                rcases ih r1 R n0 q c0 h hwftl h1 with hfin | ⟨pre', D', c', hmem, hf, hfin⟩
                · exact Or.inr ⟨p0, D0, c0, List.mem_cons_self _ _, hD0, hfin⟩
                · exact Or.inr ⟨pre', D', c', List.mem_cons_of_mem _ hmem, hf, hfin⟩
            | none =>
                rw [hD0] at h1
                simp only [Option.getD_none] at h1
                rcases ih r1 R n0 q c h hwftl h1 with hfin | ⟨pre', D', c', hmem, hf, hfin⟩
                · exact Or.inl hfin
                · exact Or.inr ⟨pre', D', c', List.mem_cons_of_mem _ hmem, hf, hfin⟩
          · have h1 : fileAt r1 (n :: q) = some c := by
              rw [copyIntoRepo_frame r n0 D0 r1 hcr n q hn0]
              exact h0
            rcases ih r1 R n q c h hwftl h1 with hfin | ⟨pre', D', c', hmem, hf, hfin⟩
            · exact Or.inl hfin
            · exact Or.inr ⟨pre', D', c', List.mem_cons_of_mem _ hmem, hf, hfin⟩

/-!
## The walk with no matching directory is a silent no-op
-/

theorem hasAllowedDirItems_cons (allow : List String) (n : String) (t : FSTree)
    (rest : List (String × FSTree)) :
    hasAllowedDirItems allow ((n, t) :: rest) = false ↔
      ((isDirT t = true → n ∉ allow) ∧ hasAllowedDir allow t = false ∧
        hasAllowedDirItems allow rest = false) := by
  simp only [hasAllowedDirItems, Bool.or_eq_false_iff, Bool.and_eq_false_iff,
    decide_eq_false_iff_not]
  constructor
  · rintro ⟨⟨h1, h2⟩, h3⟩
    refine ⟨?_, h2, h3⟩
    intro hd
    rcases h1 with h1 | h1
    · rw [hd] at h1; exact absurd h1 (by simp)
    · exact h1
  · rintro ⟨h1, h2, h3⟩
    refine ⟨⟨?_, h2⟩, h3⟩
    cases ht : isDirT t with
    | false => exact Or.inl rfl
    | true => exact Or.inr (h1 ht)

mutual

/-- When no directory anywhere in the tree has an allow-listed name, the
selector walk copies nothing and succeeds with the repository unchanged
(regular files with allow-listed names included: they are skipped). -/
theorem findAndCopy_noop (allow : List String) (t : FSTree) :
    ∀ repo : FSTree, hasAllowedDir allow t = false → isDirT t = true →
      findAndCopyQFolders (some allow) t repo = .ok repo := by
  intro repo hno hd
  match t with
  | .file _ => simp [isDirT] at hd
  | .dir items =>
      rw [findAndCopyQFolders]
      exact facItems_noop allow items repo (by simpa [hasAllowedDir] using hno)

/-- Loop version of `findAndCopy_noop`. -/
theorem facItems_noop (allow : List String) (items : List (String × FSTree)) :
    ∀ repo : FSTree, hasAllowedDirItems allow items = false →
      facItems (some allow) items repo = .ok repo := by
  intro repo hno
  match items with
  | [] => rw [facItems]
  | (n, .file c) :: rest =>
      obtain ⟨-, -, hr⟩ := (hasAllowedDirItems_cons allow n _ rest).mp hno
      rw [facItems]
      exact facItems_noop allow rest repo hr
  | (n, .dir ds) :: rest =>
      obtain ⟨h1, h2, hr⟩ := (hasAllowedDirItems_cons allow n _ rest).mp hno
      have hn : n ∉ allow := h1 (by simp [isDirT])
      rw [facItems, if_neg hn,
        findAndCopy_noop allow (.dir ds) repo h2 (by simp [isDirT])]
      exact facItems_noop allow rest repo hr

end

/-!
## The sanitizer acts only on directories named `.git`
-/

theorem findEntry_removeGitItems_file (items : List (String × FSTree)) (m : String)
    (c : List Nat) (h : findEntry items m = some (.file c)) :
    findEntry (removeGitItems items) m = some (.file c) := by
  induction items with
  | nil => simp [findEntry] at h
  | cons hd rest ih =>
      obtain ⟨k, t0⟩ := hd
      by_cases hk : k = m
      · subst hk
        rw [findEntry_cons_same] at h
        simp only [Option.some.injEq] at h
        subst h
        rw [removeGitItems, findEntry_cons_same]
      · cases t0 with
        | file c0 =>
            rw [findEntry_cons_other k m _ rest hk] at h
            rw [removeGitItems, findEntry_cons_other k m _ _ hk]
            exact ih h
        | dir ds0 =>
            rw [findEntry_cons_other k m _ rest hk] at h
            rw [removeGitItems]
            by_cases hg : k = ".git"
            · rw [if_pos hg]; exact ih h
            · rw [if_neg hg, findEntry_cons_other k m _ _ hk]; exact ih h

theorem findEntry_removeGitItems_dir (items : List (String × FSTree)) (m : String)
    (ds : List (String × FSTree)) (hm : ¬ m = ".git")
    (h : findEntry items m = some (.dir ds)) :
    findEntry (removeGitItems items) m = some (removeGitFolders (.dir ds)) := by
  induction items with
  | nil => simp [findEntry] at h
  | cons hd rest ih =>
      obtain ⟨k, t0⟩ := hd
      by_cases hk : k = m
      · subst hk
        rw [findEntry_cons_same] at h
        simp only [Option.some.injEq] at h
        subst h
        rw [removeGitItems, if_neg hm, findEntry_cons_same]
      · cases t0 with
        | file c0 =>
            rw [findEntry_cons_other k m _ rest hk] at h
            rw [removeGitItems, findEntry_cons_other k m _ _ hk]
            exact ih h
        | dir ds0 =>
            rw [findEntry_cons_other k m _ rest hk] at h
            rw [removeGitItems]
            by_cases hg : k = ".git"
            · rw [if_pos hg]; exact ih h
            · rw [if_neg hg, findEntry_cons_other k m _ _ hk]; exact ih h

/-- The sanitizer never removes a regular file: any file whose path has no
`.git` component before its final component (its own name may well be
`.git`) is still there, byte-identical, after `removeGitFolders`. -/
theorem fileAt_removeGitFolders (q : List String) :
    ∀ (t : FSTree) (c : List Nat), fileAt t q = some c →
      (∀ m ∈ q.dropLast, ¬ m = ".git") →
      fileAt (removeGitFolders t) q = some c := by
  induction q with
  | nil =>
      intro t c h _
      cases t with
      | file c0 => simpa [removeGitFolders] using h
      | dir items => rw [fileAt_dir_nil] at h; exact absurd h (by simp)
  | cons m q' ih =>
      intro t c h hq
      cases t with
      | file c0 => rw [fileAt_file] at h; simp at h
      | dir items =>
          cases hfe : findEntry items m with
          | none => rw [fileAt_dir_notFound _ _ _ hfe] at h; exact absurd h (by simp)
          | some t0 =>
              rw [fileAt_dir_found _ _ _ _ hfe] at h
              cases t0 with
              | file c0 =>
                  rw [fileAt_file] at h
                  by_cases hq0 : q' = []
                  · subst hq0
                    simp only [reduceIte, Option.some.injEq] at h
                    subst h
                    rw [removeGitFolders,
                      fileAt_dir_found _ _ _ _ (findEntry_removeGitItems_file items m c0 hfe),
                      fileAt_file]
                    simp
                  · rw [if_neg hq0] at h; exact absurd h (by simp)
              | dir ds =>
                  cases q' with
                  | nil => rw [fileAt_dir_nil] at h; exact absurd h (by simp)
                  | cons m2 q2 =>
                      have hm : ¬ m = ".git" := hq m (by simp)
                      have hq' : ∀ x ∈ (m2 :: q2).dropLast, ¬ x = ".git" := by
                        intro x hx
                        exact hq x (by simp [hx])
                      rw [removeGitFolders,
                        fileAt_dir_found _ _ _ _
                          (findEntry_removeGitItems_dir items m ds hm hfe)]
                      exact ih (.dir ds) c h hq'

/-!
## The sanitizer preserves well-formedness
-/

theorem mem_namesOf_removeGitItems (items : List (String × FSTree)) (m : String)
    (h : m ∈ namesOf (removeGitItems items)) : m ∈ namesOf items := by
  induction items with
  | nil => simpa [removeGitItems] using h
  | cons hd rest ih =>
      obtain ⟨k, t0⟩ := hd
      cases t0 with
      | file c0 =>
          rw [removeGitItems] at h
          simp only [namesOf, List.map_cons, List.mem_cons] at h ⊢
          rcases h with h | h
          · exact Or.inl h
          · exact Or.inr (ih h)
      | dir ds0 =>
          rw [removeGitItems] at h
          by_cases hg : k = ".git"
          · rw [if_pos hg] at h
            simp only [namesOf, List.map_cons, List.mem_cons]
            exact Or.inr (ih h)
          · rw [if_neg hg] at h
            simp only [namesOf, List.map_cons, List.mem_cons] at h ⊢
            rcases h with h | h
            · exact Or.inl h
            · exact Or.inr (ih h)

mutual

/-- The sanitizer preserves well-formedness of the tree. -/
theorem wfT_removeGitFolders (t : FSTree) (h : wfT t = true) :
    wfT (removeGitFolders t) = true := by
  match t with
  | .file c => simpa [removeGitFolders] using h
  | .dir items =>
      rw [removeGitFolders]
      have := wfItems_removeGitItems items (by simpa [wfT] using h)
      simpa [wfT] using this

/-- Loop version of `wfT_removeGitFolders`. -/
theorem wfItems_removeGitItems (items : List (String × FSTree))
    (h : wfItems items = true) : wfItems (removeGitItems items) = true := by
  match items with
  | [] => simpa [removeGitItems] using h
  | (n, .file c) :: rest =>
      obtain ⟨hnin, -, hr⟩ := (wfItems_cons n _ rest).mp h
      rw [removeGitItems]
      refine (wfItems_cons n _ _).mpr ⟨?_, by simp [wfT], wfItems_removeGitItems rest hr⟩
      intro hm
      exact hnin (mem_namesOf_removeGitItems rest n hm)
  | (n, .dir ds) :: rest =>
      obtain ⟨hnin, hd, hr⟩ := (wfItems_cons n _ rest).mp h
      rw [removeGitItems]
      by_cases hg : n = ".git"
      · rw [if_pos hg]
        exact wfItems_removeGitItems rest hr
      · rw [if_neg hg]
        refine (wfItems_cons n _ _).mpr
          ⟨?_, wfT_removeGitFolders (.dir ds) hd, wfItems_removeGitItems rest hr⟩
        intro hm
        exact hnin (mem_namesOf_removeGitItems rest n hm)

end

mutual

/-- With an empty allow-list no directory can match. -/
theorem hasAllowedDir_nil (t : FSTree) : hasAllowedDir [] t = false := by
  match t with
  | .file _ => rfl
  | .dir items => rw [hasAllowedDir]; exact hasAllowedDirItems_nil items

/-- Loop version of `hasAllowedDir_nil`. -/
theorem hasAllowedDirItems_nil (items : List (String × FSTree)) :
    hasAllowedDirItems [] items = false := by
  match items with
  | [] => rfl
  | (n, t) :: rest =>
      rw [hasAllowedDirItems]
      simp [hasAllowedDir_nil t, hasAllowedDirItems_nil rest]

end

/-- With the allow-list configuration unset (`undefined`), the walk throws
as soon as it reaches a directory entry. -/
theorem facItems_none_error (items : List (String × FSTree)) :
    ∀ repo : FSTree, (∃ n ds, (n, FSTree.dir ds) ∈ items) →
      ∃ e, facItems none items repo = .error e := by
  induction items with
  | nil =>
      intro repo h
      obtain ⟨n, ds, hmem⟩ := h
      simp at hmem
  | cons hd rest ih =>
      intro repo h
      obtain ⟨k, t0⟩ := hd
      cases t0 with
      | file c0 =>
          obtain ⟨n, ds, hmem⟩ := h
          rw [facItems]
          refine ih repo ⟨n, ds, ?_⟩
          rcases List.mem_cons.mp hmem with heq | hmem'
          · exact absurd heq (by simp)
          · exact hmem'
      | dir ds0 => exact ⟨_, by rw [facItems]⟩

mutual

/-- Every match the selector walk records is a directory. -/
theorem isDir_foundMatches (allow : List String) (t : FSTree) :
    ∀ pre n D, (pre, n, D) ∈ foundMatches allow t → isDirT D = true := by
  intro pre n D h
  match t with
  | .file c => simp [foundMatches] at h
  | .dir items =>
      rw [foundMatches] at h
      exact isDir_fmItems allow items pre n D h

/-- Loop version of `isDir_foundMatches`. -/
theorem isDir_fmItems (allow : List String) (items : List (String × FSTree)) :
    ∀ pre n D, (pre, n, D) ∈ fmItems allow items → isDirT D = true := by
  intro pre n D h
  match items with
  | [] => simp [fmItems] at h
  | (m0, .file c0) :: rest =>
      rw [fmItems] at h
      exact isDir_fmItems allow rest pre n D h
  | (m0, .dir ds0) :: rest =>
      rw [fmItems] at h
      by_cases hm0 : m0 ∈ allow
      · rw [if_pos hm0, List.mem_cons] at h
        rcases h with heq | h
        · obtain ⟨-, -, h3⟩ : pre = [] ∧ n = m0 ∧ D = FSTree.dir ds0 := by
            simpa [Prod.ext_iff] using heq
          subst h3
          simp [isDirT]
        · exact isDir_fmItems allow rest pre n D h
      · rw [if_neg hm0, List.mem_append] at h
        rcases h with h | h
        · obtain ⟨x, hx, he⟩ := List.mem_map.mp h
          obtain ⟨x1, x2, x3⟩ := x
          simp only [Prod.mk.injEq] at he
          obtain ⟨-, he2, he3⟩ := he
          exact he3 ▸ isDir_foundMatches allow (.dir ds0) x1 x2 x3 hx
        · exact isDir_fmItems allow rest pre n D h

end

/-!
## Claim theorems: the tree walks
-/

/-- C2: during selection, once a directory's name matches the allow-list
its contents are copied wholesale (the walk performs exactly the copies of
its recorded matches, in walk order) and that directory is not searched for
further nested matches, while every non-matching directory is searched
recursively: over a well-formed tree the walk's matches are exactly the
directories with an allow-listed name none of whose ancestors inside the
tree has an allow-listed name. -/
theorem selector_match_exclusive_of_recursion (allow : List String) (t : FSTree)
    (hwf : wfT t = true) :
    (∀ (pre : List String) (n : String) (D : FSTree),
      (pre, n, D) ∈ foundMatches allow t ↔
        lookupPath t (pre ++ [n]) = some D ∧ isDirT D = true ∧ n ∈ allow ∧
          ∀ m ∈ pre, m ∉ allow) ∧
    (∀ repo : FSTree, isDirT t = true →
      findAndCopyQFolders (some allow) t repo = runCopies repo (foundMatches allow t)) :=
  ⟨fun pre n D => mem_foundMatches_iff allow t pre n D hwf,
   fun repo hd => findAndCopy_eq_runCopies allow t repo hd⟩

/-- Witness for `selector_match_exclusive_of_recursion` at a concrete tree:
`Q2` nested under the non-matching `Q1` is found at path `Q1/Q2`, and the
walk equals running its matches. -/
theorem selector_match_exclusive_of_recursion_witness :
    (["Q1"], "Q2", FSTree.dir []) ∈
        foundMatches ["Q2"] (FSTree.dir [("Q1", FSTree.dir [("Q2", FSTree.dir [])])]) ∧
      findAndCopyQFolders (some ["Q2"])
          (FSTree.dir [("Q1", FSTree.dir [("Q2", FSTree.dir [])])]) (FSTree.dir []) =
        runCopies (FSTree.dir [])
          (foundMatches ["Q2"] (FSTree.dir [("Q1", FSTree.dir [("Q2", FSTree.dir [])])])) := by
  have h := selector_match_exclusive_of_recursion ["Q2"]
    (FSTree.dir [("Q1", FSTree.dir [("Q2", FSTree.dir [])])]) rfl
  exact ⟨(h.1 ["Q1"] "Q2" (FSTree.dir [])).mpr ⟨rfl, rfl, by decide, by decide⟩,
    h.2 (FSTree.dir []) rfl⟩

/-- C1 (amended): for every directory of the (well-formed) extracted tree
whose name is allow-listed and which is not nested inside another
allow-listed directory, after a successful walk each of its files is
present under the working-tree root at depth 1 under the directory's name
at the same relative path; the bytes are those of one of the walk's matched
directories of that same name at that relative path (a later-walked match
of the same name overwrites, as does the copy overwrite any pre-existing
destination file).  Content of an allow-listed directory nested inside
another allow-listed one is not copied to depth 1 (see the
counterexample). -/
theorem allowlisted_dir_content_at_root (allow : List String) (T repo R : FSTree)
    (pre : List String) (n : String) (D : FSTree)
    (hwf : wfT T = true)
    (hD : lookupPath T (pre ++ [n]) = some D) (hdir : isDirT D = true)
    (hn : n ∈ allow) (hmin : ∀ m ∈ pre, m ∉ allow)
    (hrun : findAndCopyQFolders (some allow) T repo = .ok R)
    (q : List String) (c : List Nat) (hq : fileAt D q = some c) :
    ∃ pre' D' c', (pre', n, D') ∈ foundMatches allow T ∧ fileAt D' q = some c' ∧
      fileAt R (n :: q) = some c' := by
  have hdirT : isDirT T = true := by
    cases T with
    | file c0 => simp [findAndCopyQFolders] at hrun
    | dir items => simp [isDirT]
  have hmem : (pre, n, D) ∈ foundMatches allow T :=
    (mem_foundMatches_iff allow T pre n D hwf).mpr ⟨hD, hdir, hn, hmin⟩
  rw [findAndCopy_eq_runCopies allow T repo hdirT] at hrun
  obtain ⟨l1, l2, hsplit⟩ := List.append_of_mem hmem
  rw [hsplit, runCopies_append] at hrun
  cases hr1 : runCopies repo l1 with
  | error e => rw [hr1] at hrun; simp at hrun
  | ok r1 =>
      rw [hr1] at hrun
      cases hcr : copyIntoRepo r1 n D with
      | error e => simp only [runCopies] at hrun; rw [hcr] at hrun; simp at hrun
      | ok r2 =>
          simp only [runCopies] at hrun
          rw [hcr] at hrun
          have hwfD : wfT D = true := wfT_foundMatches allow T pre n D hwf hmem
          have h2 : fileAt r2 (n :: q) = some c :=
            copyIntoRepo_keeps_src_files r1 n D r2 hwfD hcr q c hq
          have hwfl2 : ∀ x ∈ l2, wfT x.2.2 = true := by
            intro x hx
            refine wfT_foundMatches allow T x.1 x.2.1 x.2.2 hwf ?_
            rw [hsplit]
            exact List.mem_append.mpr (Or.inr (List.mem_cons_of_mem _ hx))
          rcases runCopies_track l2 r2 R n q c hrun hwfl2 h2 with
            hfin | ⟨pre', D', c', hmem2, hf, hfin⟩
          · exact ⟨pre, D, c, hmem, hq, hfin⟩
          · refine ⟨pre', D', c', ?_, hf, hfin⟩
            rw [hsplit]
            exact List.mem_append.mpr (Or.inr (List.mem_cons_of_mem _ hmem2))

/-- Witness for `allowlisted_dir_content_at_root`: a top-level `Q1` with a
file is copied to the root, byte-identical. -/
theorem allowlisted_dir_content_at_root_witness :
    ∃ pre' D' c', (pre', "Q1", D') ∈
        foundMatches ["Q1"] (FSTree.dir [("Q1", FSTree.dir [("a.txt", FSTree.file [1, 2])])]) ∧
      fileAt D' ["a.txt"] = some c' ∧
      fileAt (FSTree.dir [("Q1", FSTree.dir [("a.txt", FSTree.file [1, 2])])])
        ["Q1", "a.txt"] = some c' := by
  have h := allowlisted_dir_content_at_root ["Q1"]
    (FSTree.dir [("Q1", FSTree.dir [("a.txt", FSTree.file [1, 2])])])
    (FSTree.dir [])
    (FSTree.dir [("Q1", FSTree.dir [("a.txt", FSTree.file [1, 2])])])
    [] "Q1" (FSTree.dir [("a.txt", FSTree.file [1, 2])])
    rfl rfl rfl (by decide) (by decide) rfl ["a.txt"] [1, 2] rfl
  exact h

/-- Counterexample to C1 as stated: allow-list `["Q1", "Q2"]`, extracted
tree `Q1/Q2/f.txt`.  `Q2` is a directory whose name is allow-listed
(nested at depth 2) with `f.txt ↦ [65]` as content, the walk succeeds, yet
nothing lands at depth 1 under `Q2` in the working tree: its content is
only inside the copied `Q1`. -/
theorem allowlisted_dir_content_at_root_cex :
    lookupPath (FSTree.dir [("Q1", FSTree.dir [("Q2", FSTree.dir [("f.txt", FSTree.file [65])])])])
        ["Q1", "Q2"] = some (FSTree.dir [("f.txt", FSTree.file [65])]) ∧
    "Q2" ∈ ["Q1", "Q2"] ∧
    fileAt (FSTree.dir [("f.txt", FSTree.file [65])]) ["f.txt"] = some [65] ∧
    findAndCopyQFolders (some ["Q1", "Q2"])
        (FSTree.dir [("Q1", FSTree.dir [("Q2", FSTree.dir [("f.txt", FSTree.file [65])])])])
        (FSTree.dir []) =
      .ok (FSTree.dir [("Q1", FSTree.dir [("Q2", FSTree.dir [("f.txt", FSTree.file [65])])])]) ∧
    fileAt (FSTree.dir [("Q1", FSTree.dir [("Q2", FSTree.dir [("f.txt", FSTree.file [65])])])])
        ["Q2", "f.txt"] = none :=
  ⟨rfl, by decide, rfl, rfl, rfl⟩

/-- C3: sanitization runs to completion before selection begins
(`sanitizeThenSelect` feeds `removeGitFolders`' output to the walk, as
lines 109-112 do): the sanitized tree has no directory named `.git`
anywhere, every directory the selector then copies is `.git`-free (even
when the `.git` directory sat inside an allow-listed directory), and the
copies performed are exactly those of the sanitized tree's matches. -/
theorem no_git_dir_reaches_working_tree (allow : List String) (extracted repo : FSTree) :
    noGitDirB (removeGitFolders extracted) = true ∧
    (∀ (pre : List String) (n : String) (D : FSTree),
      (pre, n, D) ∈ foundMatches allow (removeGitFolders extracted) →
        noGitDirB D = true) ∧
    (isDirT extracted = true →
      sanitizeThenSelect (some allow) extracted repo =
        runCopies repo (foundMatches allow (removeGitFolders extracted))) := by
  refine ⟨noGit_removeGitFolders extracted,
    fun pre n D h =>
      noGit_foundMatches allow (removeGitFolders extracted) pre n D
        (noGit_removeGitFolders extracted) h,
    fun hd => ?_⟩
  have hd' : isDirT (removeGitFolders extracted) = true := by
    cases extracted with
    | file c => simp [isDirT] at hd
    | dir items => simp [removeGitFolders, isDirT]
  exact findAndCopy_eq_runCopies allow (removeGitFolders extracted) repo hd'

/-- Witness for `no_git_dir_reaches_working_tree`: a `.git` directory
nested inside the allow-listed `Q1` is gone from the match the walk
copies. -/
theorem no_git_dir_reaches_working_tree_witness :
    noGitDirB (removeGitFolders
      (FSTree.dir [("Q1", FSTree.dir [(".git", FSTree.dir [("c", FSTree.file [3])]),
        ("r.txt", FSTree.file [9])])])) = true ∧
    noGitDirB (FSTree.dir [("r.txt", FSTree.file [9])]) = true ∧
    sanitizeThenSelect (some ["Q1"])
        (FSTree.dir [("Q1", FSTree.dir [(".git", FSTree.dir [("c", FSTree.file [3])]),
          ("r.txt", FSTree.file [9])])]) (FSTree.dir []) =
      runCopies (FSTree.dir [])
        (foundMatches ["Q1"] (removeGitFolders
          (FSTree.dir [("Q1", FSTree.dir [(".git", FSTree.dir [("c", FSTree.file [3])]),
            ("r.txt", FSTree.file [9])])]))) := by
  have h := no_git_dir_reaches_working_tree ["Q1"]
    (FSTree.dir [("Q1", FSTree.dir [(".git", FSTree.dir [("c", FSTree.file [3])]),
      ("r.txt", FSTree.file [9])])]) (FSTree.dir [])
  exact ⟨h.1, h.2.1 [] "Q1" (FSTree.dir [("r.txt", FSTree.file [9])]) (by
    rw [show removeGitFolders
      (FSTree.dir [("Q1", FSTree.dir [(".git", FSTree.dir [("c", FSTree.file [3])]),
        ("r.txt", FSTree.file [9])])]) =
      FSTree.dir [("Q1", FSTree.dir [("r.txt", FSTree.file [9])])] from rfl]
    rw [show foundMatches ["Q1"] (FSTree.dir [("Q1", FSTree.dir [("r.txt", FSTree.file [9])])]) =
      [([], "Q1", FSTree.dir [("r.txt", FSTree.file [9])])] from rfl]
    exact List.mem_singleton.mpr rfl), h.2.2 rfl⟩

/-- C7 (amended): an empty allow-list (and more generally any allow-list
matching no directory name of the tree) makes the selection walk a silent
no-op: nothing is found, nothing copied, no error.  An *unset* allow-list
(`undefined`, from an absent environment variable) is different: the walk
throws a `TypeError` as soon as it reaches a directory entry (see the
counterexample). -/
theorem empty_allowlist_silent_noop :
    (∀ (allow : List String) (t repo : FSTree), hasAllowedDir allow t = false →
      isDirT t = true → findAndCopyQFolders (some allow) t repo = .ok repo) ∧
    (∀ t : FSTree, hasAllowedDir [] t = false) ∧
    (∀ (items : List (String × FSTree)) (repo : FSTree),
      (∃ n ds, (n, FSTree.dir ds) ∈ items) →
        ∃ e, findAndCopyQFolders none (.dir items) repo = .error e) := by
  refine ⟨fun allow t repo hno hd => findAndCopy_noop allow t repo hno hd,
    hasAllowedDir_nil, fun items repo h => ?_⟩
  rw [findAndCopyQFolders]
  exact facItems_none_error items repo h

/-- Witness for `empty_allowlist_silent_noop`: an archive tree with one
directory; the empty allow-list walks it, copies nothing and succeeds;
the unset allow-list errors on it. -/
theorem empty_allowlist_silent_noop_witness :
    findAndCopyQFolders (some []) (FSTree.dir [("docs", FSTree.dir [])])
        (FSTree.dir [("keep", FSTree.file [5])]) =
      .ok (FSTree.dir [("keep", FSTree.file [5])]) ∧
    (∃ e, findAndCopyQFolders none (FSTree.dir [("docs", FSTree.dir [])])
        (FSTree.dir []) = .error e) := by
  have h := empty_allowlist_silent_noop
  refine ⟨h.1 [] (FSTree.dir [("docs", FSTree.dir [])])
      (FSTree.dir [("keep", FSTree.file [5])])
      (h.2.1 (FSTree.dir [("docs", FSTree.dir [])])) rfl,
    h.2.2 [("docs", FSTree.dir [])] (FSTree.dir []) ⟨"docs", [], List.mem_singleton.mpr rfl⟩⟩

/-- Counterexample to C7 as stated: with the allow-list *unset* and an
archive containing a directory, the walk does not silently do nothing — it
signals an error (the `TypeError` from `undefined.includes`). -/
theorem empty_allowlist_silent_noop_cex :
    findAndCopyQFolders none (FSTree.dir [("docs", FSTree.dir [])]) (FSTree.dir []) =
      .error ("TypeError: knownDirectories is undefined") := rfl

/-- C10: both recursive walks act only on directory entries.  A regular
file named `.git` is never removed by the sanitizer (any file whose path
has no `.git` directory-component above it survives byte-identical, even
when the file itself is named `.git`); a regular file whose name matches
the allow-list is never copied by the selector (if no *directory* bears an
allow-listed name the walk leaves the repository untouched, and every
match the walk records is a directory). -/
theorem walks_ignore_regular_files :
    (∀ (t : FSTree) (q : List String) (c : List Nat), fileAt t q = some c →
      (∀ m ∈ q.dropLast, ¬ m = ".git") → fileAt (removeGitFolders t) q = some c) ∧
    (∀ (allow : List String) (t repo : FSTree), hasAllowedDir allow t = false →
      isDirT t = true → findAndCopyQFolders (some allow) t repo = .ok repo) ∧
    (∀ (allow : List String) (t : FSTree) (pre : List String) (n : String) (D : FSTree),
      (pre, n, D) ∈ foundMatches allow t → isDirT D = true) :=
  ⟨fun t q c h hq => fileAt_removeGitFolders q t c h hq,
    fun allow t repo hno hd => findAndCopy_noop allow t repo hno hd,
    fun allow t pre n D h => isDir_foundMatches allow t pre n D h⟩

/-- Witness for `walks_ignore_regular_files`: a regular file named `.git`
survives sanitization; a regular file named `Q1` (allow-listed name)
triggers no copy. -/
theorem walks_ignore_regular_files_witness :
    fileAt (removeGitFolders (FSTree.dir [(".git", FSTree.file [7])])) [".git"] =
      some [7] ∧
    findAndCopyQFolders (some ["Q1"]) (FSTree.dir [("Q1", FSTree.file [1])])
        (FSTree.dir []) = .ok (FSTree.dir []) := by
  have h := walks_ignore_regular_files
  refine ⟨h.1 (FSTree.dir [(".git", FSTree.file [7])]) [".git"] [7] rfl (by simp),
    h.2.1 ["Q1"] (FSTree.dir [("Q1", FSTree.file [1])]) (FSTree.dir []) rfl rfl⟩

/-!
## Lemmas about branch names (src/index.js lines 99-101, 117)
-/

theorem string_data_append (a b : String) : (a ++ b).data = a.data ++ b.data := rfl

theorem takeWhile_notSlash_append (l1 l2 : List Char) (h : '/' ∉ l1) :
    (l1 ++ l2).takeWhile (fun c => c ≠ '/') = l1 ++ l2.takeWhile (fun c => c ≠ '/') := by
  induction l1 with
  | nil => simp
  | cons a l ih =>
      have ha : ¬ a = '/' := fun he => h (by simp [he])
      simp only [List.cons_append, List.takeWhile_cons]
      simp only [decide_eq_true_eq] at *
      rw [if_pos ha]
      rw [ih (fun hm => h (by simp [hm]))]

theorem takeWhile_notSlash_slashHead (l : List Char) :
    ('/' :: l).takeWhile (fun c => c ≠ '/') = [] := by
  simp [List.takeWhile_cons]

/-- The last path segment of `zips/<f>` is `f` for a slash-free file
name `f`. -/
theorem afterLastSlash_zipsPath (f : String) (hf : '/' ∉ f.data) :
    afterLastSlash (zipsPath f) = f := by
  have h1 : (zipsPath f).data.reverse =
      f.data.reverse ++ ('/' :: 's' :: 'p' :: 'i' :: 'z' :: []) := by
    show (("zips/" : String) ++ f).data.reverse = _
    rw [string_data_append, List.reverse_append]
    rfl
  show String.mk (((zipsPath f).data.reverse.takeWhile (fun c => c ≠ '/')).reverse) = f
  rw [h1, takeWhile_notSlash_append _ _ (by simpa using hf), takeWhile_notSlash_slashHead]
  rw [List.append_nil, List.reverse_reverse]

/-- Stripping the `.zip` extension from `zips/<g>.zip` yields `g` for a
slash-free, nonempty `g` — `basename(zipFile, ".zip")` of line 100. -/
theorem nodeBasename_strip (g : String) (hg : ¬ g = "") (hsl : '/' ∉ g.data) :
    nodeBasename (zipsPath (g ++ ".zip")) (".zip") = g := by
  have hzdata : (g ++ ".zip").data = g.data ++ ('.' :: 'z' :: 'i' :: 'p' :: []) := rfl
  have hslz : '/' ∉ (g ++ ".zip").data := by
    rw [hzdata]
    intro hmem
    rcases List.mem_append.mp hmem with hmem | hmem
    · exact hsl hmem
    · simp at hmem
  have hb : afterLastSlash (zipsPath (g ++ ".zip")) = g ++ ".zip" :=
    afterLastSlash_zipsPath _ hslz
  have hlen : (zipsPath (g ++ ".zip")).data.length = g.data.length + 9 := by
    show (("zips/" : String) ++ (g ++ ".zip")).data.length = _
    rw [string_data_append, hzdata]
    simp [List.length_append]
  have hgd : ¬ g.data = [] := fun he => hg (String.ext he)
  simp only [nodeBasename]
  rw [if_neg (by
    rw [hlen]
    rintro (habs | habs)
    · simp at habs
    · have h4 : (".zip" : String).data.length = 4 := rfl
      rw [h4] at habs
      omega)]
  rw [if_neg (by
    intro habs
    have := congrArg (fun s => s.data.length) habs
    simp only [hlen] at this
    have h4 : (".zip" : String).data.length = 4 := rfl
    rw [h4] at this
    omega)]
  rw [hb]
  rw [if_pos ⟨List.isSuffixOf_iff_suffix.mpr ⟨g.data, by rw [hzdata]⟩, by
    intro habs
    have := congrArg String.data habs
    rw [hzdata] at this
    have h2 : g.data = [] := by
      have h3 : ('.' :: 'z' :: 'i' :: 'p' :: []) = (".zip" : String).data := rfl
      rw [h3] at this
      exact List.append_left_eq_self.mp this
    exact hgd h2⟩]
  rw [hzdata]
  have htk : (g.data ++ ('.' :: 'z' :: 'i' :: 'p' :: [])).length - (".zip" : String).data.length =
      g.data.length := by
    simp [List.length_append]
  rw [htk]
  rw [List.take_left]

/-- The commit message (line 117) is literally `Add files from <file>`. -/
theorem commitMessageOf_eq (f : String) (hf : '/' ∉ f.data) :
    commitMessageOf f = "Add files from " ++ f := by
  show "Add files from " ++ afterLastSlash (zipsPath f) = "Add files from " ++ f
  rw [afterLastSlash_zipsPath f hf]

/-- C5 (amended): for every archive file name `<g>.zip` with nonempty,
slash-free `g`, the generated branch name is the configured prefix, a
hyphen, and the file name without its `.zip` suffix, and the commit
message is `Add files from <file name>`; the mapping is deterministic (it
is a function of the file name alone) and injective on such names.  The
degenerate file name `.zip` breaks injectivity: Node's `basename` keeps a
segment equal to the extension whole, so `.zip` and `.zip.zip` map to the
same branch name (see the counterexample). -/
theorem branch_name_deterministic_injective (pr g1 g2 : String)
    (h1 : ¬ g1 = "") (h2 : ¬ g2 = "") (hs1 : '/' ∉ g1.data) (hs2 : '/' ∉ g2.data) :
    branchNameOf pr (g1 ++ ".zip") = pr ++ "-" ++ g1 ∧
    commitMessageOf (g1 ++ ".zip") = "Add files from " ++ (g1 ++ ".zip") ∧
    (branchNameOf pr (g1 ++ ".zip") = branchNameOf pr (g2 ++ ".zip") →
      g1 ++ ".zip" = g2 ++ ".zip") := by
  have hslz : ∀ g : String, '/' ∉ g.data → '/' ∉ (g ++ ".zip").data := by
    intro g hg hmem
    rw [show (g ++ ".zip").data = g.data ++ ('.' :: 'z' :: 'i' :: 'p' :: []) from rfl] at hmem
    rcases List.mem_append.mp hmem with hmem | hmem
    · exact hg hmem
    · simp at hmem
  have hf1 : branchNameOf pr (g1 ++ ".zip") = pr ++ "-" ++ g1 := by
    show pr ++ "-" ++ nodeBasename (zipsPath (g1 ++ ".zip")) (".zip") = pr ++ "-" ++ g1
    rw [nodeBasename_strip g1 h1 hs1]
  have hf2 : branchNameOf pr (g2 ++ ".zip") = pr ++ "-" ++ g2 := by
    show pr ++ "-" ++ nodeBasename (zipsPath (g2 ++ ".zip")) (".zip") = pr ++ "-" ++ g2
    rw [nodeBasename_strip g2 h2 hs2]
  refine ⟨hf1, commitMessageOf_eq _ (hslz g1 hs1), ?_⟩
  intro heq
  rw [hf1, hf2] at heq
  have hd := congrArg String.data heq
  rw [string_data_append, string_data_append] at hd
  have hgd : g1.data = g2.data := List.append_cancel_left hd
  rw [String.ext hgd]

/-- Witness for `branch_name_deterministic_injective` at the spec's own
scenario name `release-1.zip` with the default prefix. -/
theorem branch_name_deterministic_injective_witness :
    branchNameOf "script-branch" ("release-1" ++ ".zip") =
        "script-branch" ++ "-" ++ "release-1" ∧
      commitMessageOf ("release-1" ++ ".zip") =
        "Add files from " ++ ("release-1" ++ ".zip") ∧
      (branchNameOf "script-branch" ("release-1" ++ ".zip") =
          branchNameOf "script-branch" ("release-1" ++ ".zip") →
        "release-1" ++ ".zip" = "release-1" ++ ".zip") :=
  branch_name_deterministic_injective "script-branch" "release-1" "release-1"
    (by decide) (by decide) (by decide) (by decide)

/-- Counterexample to C5 as stated: the distinct archive file names `.zip`
and `.zip.zip` generate the same branch name (Node's `basename` does not
strip an extension equal to the whole final segment), so the mapping is
not injective over all archive file names. -/
theorem branch_name_deterministic_injective_cex :
    branchNameOf "script-branch" (".zip") = branchNameOf "script-branch" (".zip.zip") ∧
    ¬ (".zip" : String) = ".zip.zip" :=
  ⟨rfl, by decide⟩

/-!
## Lemmas about the orchestration model
-/

theorem mem_andThen_elim (x : List Eff × Option String) (k : String → List Eff × Option String)
    (e : Eff) (h : e ∈ (andThen x k).1) : e ∈ x.1 ∨ ∃ s, e ∈ (k s).1 := by
  obtain ⟨fx, r⟩ := x
  cases r with
  | none => exact Or.inl (by simpa [andThen] using h)
  | some s =>
      simp only [andThen] at h
      rcases List.mem_append.mp h with h | h
      · exact Or.inl h
      · exact Or.inr ⟨s, h⟩

/-- The rejection/resolution outcome of `processZipFile`: it resolves (with
the new branch checked out) exactly when every awaited operation other than
the API call resolves — the API call's outcome does not appear. -/
theorem processZipFile_snd (pre base : String) (a : ArchiveSpec) (cur : String) :
    (processZipFile pre base a cur).2 =
      if nonApiOk a = true then some (branchNameOf pre a.zipName) else none := by
  cases h1 : a.mkTmpOk with
  | false => simp [processZipFile, andThen, awaitOp, pushAndCreateMergeRequest, nonApiOk, h1]
  | true =>
  cases h2 : a.unzipOk with
  | false => simp [processZipFile, andThen, awaitOp, pushAndCreateMergeRequest, nonApiOk, h1, h2]
  | true =>
  cases h3 : a.removeGitOk with
  | false =>
      simp [processZipFile, andThen, awaitOp, pushAndCreateMergeRequest, nonApiOk, h1, h2, h3]
  | true =>
  cases h4 : a.findCopyOk with
  | false =>
      simp [processZipFile, andThen, awaitOp, pushAndCreateMergeRequest, nonApiOk, h1, h2, h3, h4]
  | true =>
  cases h5 : a.checkoutLocalOk with
  | false =>
      simp [processZipFile, andThen, awaitOp, pushAndCreateMergeRequest, nonApiOk,
        h1, h2, h3, h4, h5]
  | true =>
  cases h6 : a.addOk with
  | false =>
      simp [processZipFile, andThen, awaitOp, pushAndCreateMergeRequest, nonApiOk,
        h1, h2, h3, h4, h5, h6]
  | true =>
  cases h7 : a.commitOk with
  | false =>
      simp [processZipFile, andThen, awaitOp, pushAndCreateMergeRequest, nonApiOk,
        h1, h2, h3, h4, h5, h6, h7]
  | true =>
  cases h8 : a.pushOk with
  | false =>
      simp [processZipFile, andThen, awaitOp, pushAndCreateMergeRequest, nonApiOk,
        h1, h2, h3, h4, h5, h6, h7, h8]
  | true =>
  cases h9 : a.rmTmpOk with
  | false =>
      simp [processZipFile, andThen, awaitOp, pushAndCreateMergeRequest, nonApiOk,
        h1, h2, h3, h4, h5, h6, h7, h8, h9]
  | true =>
      simp [processZipFile, andThen, awaitOp, pushAndCreateMergeRequest, nonApiOk,
        h1, h2, h3, h4, h5, h6, h7, h8, h9]

/-- `processZipFile` starts processing its archive exactly once, whatever
resolves or rejects. -/
theorem attemptedZips_processZipFile (pre base : String) (a : ArchiveSpec) (cur : String) :
    attemptedZips (processZipFile pre base a cur).1 = [a.zipName] := by
  cases h1 : a.mkTmpOk with
  | false =>
      simp [processZipFile, andThen, awaitOp, pushAndCreateMergeRequest, attemptedZips, h1]
  | true =>
  cases h2 : a.unzipOk with
  | false =>
      simp [processZipFile, andThen, awaitOp, pushAndCreateMergeRequest, attemptedZips, h1, h2]
  | true =>
  cases h3 : a.removeGitOk with
  | false =>
      simp [processZipFile, andThen, awaitOp, pushAndCreateMergeRequest, attemptedZips,
        h1, h2, h3]
  | true =>
  cases h4 : a.findCopyOk with
  | false =>
      simp [processZipFile, andThen, awaitOp, pushAndCreateMergeRequest, attemptedZips,
        h1, h2, h3, h4]
  | true =>
  cases h5 : a.checkoutLocalOk with
  | false =>
      simp [processZipFile, andThen, awaitOp, pushAndCreateMergeRequest, attemptedZips,
        h1, h2, h3, h4, h5]
  | true =>
  cases h6 : a.addOk with
  | false =>
      simp [processZipFile, andThen, awaitOp, pushAndCreateMergeRequest, attemptedZips,
        h1, h2, h3, h4, h5, h6]
  | true =>
  cases h7 : a.commitOk with
  | false =>
      simp [processZipFile, andThen, awaitOp, pushAndCreateMergeRequest, attemptedZips,
        h1, h2, h3, h4, h5, h6, h7]
  | true =>
  cases h8 : a.pushOk with
  | false =>
      simp [processZipFile, andThen, awaitOp, pushAndCreateMergeRequest, attemptedZips,
        h1, h2, h3, h4, h5, h6, h7, h8]
  | true =>
  cases h9 : a.apiOk with
  | false =>
      simp [processZipFile, andThen, awaitOp, pushAndCreateMergeRequest, attemptedZips,
        h1, h2, h3, h4, h5, h6, h7, h8, h9]
  | true =>
      simp [processZipFile, andThen, awaitOp, pushAndCreateMergeRequest, attemptedZips,
        h1, h2, h3, h4, h5, h6, h7, h8, h9]

/-- The branch recorded at the start of an archive's processing is the
branch checked out when `processZipFile` is entered. -/
theorem archiveStart_processZipFile (pre base : String) (a : ArchiveSpec) (cur : String)
    (b z : String) (h : Eff.archiveStart b z ∈ (processZipFile pre base a cur).1) :
    b = cur := by
  simp only [processZipFile] at h
  rcases mem_andThen_elim _ _ _ h with h | ⟨s1, h⟩
  · exact (by simpa using h : b = cur ∧ z = a.zipName).1
  rcases mem_andThen_elim _ _ _ h with h | ⟨s2, h⟩
  · simp [awaitOp] at h
  rcases mem_andThen_elim _ _ _ h with h | ⟨s3, h⟩
  · simp [awaitOp] at h
  rcases mem_andThen_elim _ _ _ h with h | ⟨s4, h⟩
  · simp [awaitOp] at h
  rcases mem_andThen_elim _ _ _ h with h | ⟨s5, h⟩
  · simp [awaitOp] at h
  rcases mem_andThen_elim _ _ _ h with h | ⟨s6, h⟩
  · simp [awaitOp] at h
  rcases mem_andThen_elim _ _ _ h with h | ⟨s7, h⟩
  · simp [awaitOp] at h
  rcases mem_andThen_elim _ _ _ h with h | ⟨s8, h⟩
  · simp [awaitOp] at h
  rcases mem_andThen_elim _ _ _ h with h | ⟨s9, h⟩
  · simp only [pushAndCreateMergeRequest] at h
    rcases mem_andThen_elim _ _ _ h with h | ⟨s10, h⟩
    · simp [awaitOp] at h
    · split at h <;> simp at h
  · simp [awaitOp] at h

/-- Every archive-start marker in a run records either the loop entry
branch or the base branch. -/
theorem archiveStart_mainLoop (pre base : String) (specs : List ArchiveSpec) :
    ∀ (cur b z : String), Eff.archiveStart b z ∈ (mainLoop pre base specs cur).1 →
      b = cur ∨ b = base := by
  induction specs with
  | nil => intro cur b z h; simp [mainLoop] at h
  | cons a rest ih =>
      intro cur b z h
      rcases hpz : processZipFile pre base a cur with ⟨fx, r⟩
      cases r with
      | none =>
          simp only [mainLoop, hpz] at h
          exact Or.inl (archiveStart_processZipFile pre base a cur b z (by rw [hpz]; exact h))
      | some c =>
          simp only [mainLoop, hpz] at h
          by_cases hco : a.checkoutBaseOk = true
          · rw [if_pos hco] at h
            simp only [List.mem_append, List.mem_cons] at h
            rcases h with h | h | h
            · exact Or.inl
                (archiveStart_processZipFile pre base a cur b z (by rw [hpz]; exact h))
            · simp at h
            · rcases ih base b z h with h | h
              · exact Or.inr h
              · exact Or.inr h
          · rw [if_neg hco] at h
            simp only [List.mem_append, List.mem_cons] at h
            rcases h with h | h
            · exact Or.inl
                (archiveStart_processZipFile pre base a cur b z (by rw [hpz]; exact h))
            · simp at h

/-- The run resolves exactly when every archive's awaited operations (API
call aside) resolve. -/
theorem mainLoop_isSome (pre base : String) (specs : List ArchiveSpec) :
    ∀ cur : String,
      ((mainLoop pre base specs cur).2.isSome = true ↔ ∀ a ∈ specs, specOk a = true) := by
  induction specs with
  | nil => intro cur; simp [mainLoop]
  | cons a rest ih =>
      intro cur
      rcases hpz : processZipFile pre base a cur with ⟨fx, r⟩
      cases hna : nonApiOk a with
      | false =>
          have hs : r = none := by
            have h2 := processZipFile_snd pre base a cur
            rw [hpz, hna] at h2
            simpa using h2
          subst hs
          simp only [mainLoop, hpz]
          constructor
          · intro habs; simp at habs
          · intro hall
            have := hall a (List.mem_cons_self a rest)
            rw [specOk, hna] at this
            simp at this
      | true =>
          have hs : r = some (branchNameOf pre a.zipName) := by
            have h2 := processZipFile_snd pre base a cur
            rw [hpz, hna] at h2
            simpa using h2
          subst hs
          simp only [mainLoop, hpz]
          by_cases hco : a.checkoutBaseOk = true
          · rw [if_pos hco]
            simp only
            rw [ih base]
            constructor
            · intro h x hx
              rcases List.mem_cons.mp hx with heq | hx'
              · subst heq; simp [specOk, hna, hco]
              · exact h x hx'
            · intro h x hx
              exact h x (List.mem_cons_of_mem a hx)
          · rw [if_neg hco]
            constructor
            · intro habs; simp at habs
            · intro hall
              have := hall a (List.mem_cons_self a rest)
              rw [specOk, hna] at this
              simp [hco] at this

theorem attemptedZips_append (l1 l2 : List Eff) :
    attemptedZips (l1 ++ l2) = attemptedZips l1 ++ attemptedZips l2 := by
  simp [attemptedZips, List.filterMap_append]

theorem attemptedZips_checkoutBase_cons (bb : String) (l : List Eff) :
    attemptedZips (Eff.checkoutBase bb :: l) = attemptedZips l := by
  simp [attemptedZips]

/-- A fully-processed archive (API call aside) is followed by the rest of
the run, started from the base branch. -/
theorem attemptedZips_mainLoop_cons_ok (pre base : String) (a : ArchiveSpec)
    (rest : List ArchiveSpec) (cur : String) (h : specOk a = true) :
    attemptedZips (mainLoop pre base (a :: rest) cur).1 =
      a.zipName :: attemptedZips (mainLoop pre base rest base).1 := by
  have hna : nonApiOk a = true := by
    rw [specOk, Bool.and_eq_true] at h
    exact h.1
  have hco : a.checkoutBaseOk = true := by
    rw [specOk, Bool.and_eq_true] at h
    exact h.2
  rcases hpz : processZipFile pre base a cur with ⟨fx, r⟩
  have hfx : attemptedZips fx = [a.zipName] := by
    have := attemptedZips_processZipFile pre base a cur
    rw [hpz] at this
    exact this
  have hs : r = some (branchNameOf pre a.zipName) := by
    have h2 := processZipFile_snd pre base a cur
    rw [hpz, hna] at h2
    simpa using h2
  subst hs
  simp only [mainLoop, hpz, if_pos hco]
  rw [attemptedZips_append, hfx, attemptedZips_checkoutBase_cons]
  rfl

/-- An archive with a rejecting awaited operation (API call aside) ends the
run: no later archive is started. -/
theorem attemptedZips_mainLoop_cons_fail (pre base : String) (a : ArchiveSpec)
    (rest : List ArchiveSpec) (cur : String) (h : specOk a = false) :
    attemptedZips (mainLoop pre base (a :: rest) cur).1 = [a.zipName] := by
  rcases hpz : processZipFile pre base a cur with ⟨fx, r⟩
  have hfx : attemptedZips fx = [a.zipName] := by
    have := attemptedZips_processZipFile pre base a cur
    rw [hpz] at this
    exact this
  cases hna : nonApiOk a with
  | false =>
      have hs : r = none := by
        have h2 := processZipFile_snd pre base a cur
        rw [hpz, hna] at h2
        simpa using h2
      subst hs
      simp only [mainLoop, hpz]
      exact hfx
  | true =>
      have hco : a.checkoutBaseOk = false := by
        rw [specOk, hna] at h
        simpa using h
      have hs : r = some (branchNameOf pre a.zipName) := by
        have h2 := processZipFile_snd pre base a cur
        rw [hpz, hna] at h2
        simpa using h2
      subst hs
      simp only [mainLoop, hpz]
      rw [if_neg (show ¬ a.checkoutBaseOk = true by simp [hco])]
      rw [show ((fx ++ [Eff.checkoutBase base], (none : Option String))).1 =
        fx ++ [Eff.checkoutBase base] from rfl]
      rw [attemptedZips_append, hfx]
      simp [attemptedZips]

/-- The full effect sequence of an archive whose awaited operations all
resolve (API call outcome left open): every operation is attempted in
source order, and the promise resolves on the new branch. -/
theorem processZipFile_full (pre base : String) (a : ArchiveSpec) (cur : String)
    (h : nonApiOk a = true) :
    processZipFile pre base a cur =
      ([Eff.archiveStart cur a.zipName, Eff.mkTmp (tmpDirOf a.zipName),
        Eff.unzip a.zipName (tmpDirOf a.zipName), Eff.removeGit (tmpDirOf a.zipName),
        Eff.findCopy (tmpDirOf a.zipName), Eff.checkoutLocal (branchNameOf pre a.zipName),
        Eff.addAll, Eff.commit (commitMessageOf a.zipName),
        Eff.push (branchNameOf pre a.zipName), Eff.apiPost (branchNameOf pre a.zipName) base]
        ++ (if a.apiOk = true then [Eff.logSuccess] else [Eff.logError])
        ++ [Eff.rmTmp (tmpDirOf a.zipName)],
       some (branchNameOf pre a.zipName)) := by
  simp only [nonApiOk, Bool.and_eq_true] at h
  obtain ⟨⟨⟨⟨⟨⟨⟨⟨h1, h2⟩, h3⟩, h4⟩, h5⟩, h6⟩, h7⟩, h8⟩, h9⟩ := h
  simp [processZipFile, andThen, awaitOp, pushAndCreateMergeRequest,
    h1, h2, h3, h4, h5, h6, h7, h8, h9]

/-- One loop iteration of a fully-processed archive: its effects, then the
checkout of the base branch, then the rest of the run from the base
branch. -/
theorem mainLoop_cons_ok (pre base : String) (a : ArchiveSpec) (rest : List ArchiveSpec)
    (cur : String) (hna : nonApiOk a = true) (hco : a.checkoutBaseOk = true) :
    mainLoop pre base (a :: rest) cur =
      ((processZipFile pre base a cur).1 ++
        Eff.checkoutBase base :: (mainLoop pre base rest base).1,
       (mainLoop pre base rest base).2) := by
  rcases hpz : processZipFile pre base a cur with ⟨fx, r⟩
  have hs : r = some (branchNameOf pre a.zipName) := by
    have h2 := processZipFile_snd pre base a cur
    rw [hpz, hna] at h2
    simpa using h2
  subst hs
  simp only [mainLoop, hpz, if_pos hco]

/-!
## Claim theorems: orchestration
-/

/-- C4: a stage failure aborts the whole run if and only if it is not the
merge-request API call.  The run resolves exactly when every archive's
awaited operations (API call aside) resolve; one archive's processing
resolves exactly when its non-API awaited operations resolve (`nonApiOk`
does not mention the API outcome); after a fully-processed archive the next
archives are still attempted (even when its API call failed), while an
archive with any other rejection is the last one attempted. -/
theorem run_aborts_iff_nonapi_failure (pre base : String) :
    (∀ (specs : List ArchiveSpec) (cur : String),
      ((mainLoop pre base specs cur).2.isSome = true ↔ ∀ a ∈ specs, specOk a = true)) ∧
    (∀ (a : ArchiveSpec) (cur : String),
      (processZipFile pre base a cur).2.isSome = nonApiOk a) ∧
    (∀ (a : ArchiveSpec) (rest : List ArchiveSpec) (cur : String), specOk a = true →
      attemptedZips (mainLoop pre base (a :: rest) cur).1 =
        a.zipName :: attemptedZips (mainLoop pre base rest base).1) ∧
    (∀ (a : ArchiveSpec) (rest : List ArchiveSpec) (cur : String), specOk a = false →
      attemptedZips (mainLoop pre base (a :: rest) cur).1 = [a.zipName]) := by
  refine ⟨mainLoop_isSome pre base, fun a cur => ?_,
    attemptedZips_mainLoop_cons_ok pre base, attemptedZips_mainLoop_cons_fail pre base⟩
  rw [processZipFile_snd]
  cases nonApiOk a <;> simp

/-- Witness for `run_aborts_iff_nonapi_failure`: an archive whose API call
fails is followed by the next archive; one whose push fails is the last
attempted. -/
theorem run_aborts_iff_nonapi_failure_witness :
    attemptedZips (mainLoop "script-branch" "main"
        ((⟨"a.zip", true, true, true, true, true, true, true, true, false, true, true⟩ :
          ArchiveSpec) ::
          [(⟨"b.zip", true, true, true, true, true, true, true, true, true, true, true⟩ :
            ArchiveSpec)]) "main").1 =
      "a.zip" :: attemptedZips (mainLoop "script-branch" "main"
        [(⟨"b.zip", true, true, true, true, true, true, true, true, true, true, true⟩ :
          ArchiveSpec)] "main").1 ∧
    attemptedZips (mainLoop "script-branch" "main"
        ((⟨"c.zip", true, true, true, true, true, true, true, false, true, true, true⟩ :
          ArchiveSpec) ::
          [(⟨"d.zip", true, true, true, true, true, true, true, true, true, true, true⟩ :
            ArchiveSpec)]) "main").1 = ["c.zip"] := by
  have h := run_aborts_iff_nonapi_failure "script-branch" "main"
  exact ⟨h.2.2.1 _ _ "main" (by decide), h.2.2.2 _ _ "main" (by decide)⟩

/-- C6: before each archive's processing begins, the checked-out branch is
the base branch: every archive-start marker of a run (which records the
branch checked out when `processZipFile` is entered) carries the base
branch — even though a fully-processed archive leaves the new branch
checked out, the loop's explicit checkout restores the base branch first. -/
theorem base_branch_restored_between_archives (pre base : String) (specs : List ArchiveSpec) :
    (∀ b z : String, Eff.archiveStart b z ∈ (runMain pre base specs).1 → b = base) ∧
    (∀ (a : ArchiveSpec) (cur : String), nonApiOk a = true →
      (processZipFile pre base a cur).2 = some (branchNameOf pre a.zipName)) := by
  refine ⟨fun b z h => ?_, fun a cur h => ?_⟩
  · rcases archiveStart_mainLoop pre base specs base b z h with h | h <;> exact h
  · rw [processZipFile_snd, if_pos h]

/-- Witness for `base_branch_restored_between_archives`: in a two-archive
run the second archive starts on the base branch, and processing leaves
the generated branch checked out. -/
theorem base_branch_restored_between_archives_witness :
    ("main" : String) = "main" ∧
    (processZipFile "script-branch" "main"
        (⟨"b.zip", true, true, true, true, true, true, true, true, true, true, true⟩ :
          ArchiveSpec) "main").2 =
      some (branchNameOf "script-branch" "b.zip") := by
  have h := base_branch_restored_between_archives "script-branch" "main"
    ((⟨"a.zip", true, true, true, true, true, true, true, true, true, true, true⟩ :
      ArchiveSpec) ::
      [(⟨"b.zip", true, true, true, true, true, true, true, true, true, true, true⟩ :
        ArchiveSpec)])
  exact ⟨h.1 "main" "b.zip" (by decide), h.2 _ "main" (by decide)⟩

/-- C9: for an archive whose non-API awaited operations resolve but whose
merge-request API call fails, the API-failure path skips nothing but the
success log: the effect sequence is the same as the API-success run except
that the error line replaces the success line; in particular the scratch
directory removal is still attempted afterwards, and the base branch is
still checked out before the next archive begins. -/
theorem api_failure_skips_only_success_log (pre base : String) (a : ArchiveSpec)
    (rest : List ArchiveSpec) (cur : String)
    (h : nonApiOk a = true) (hapi : a.apiOk = false) (hco : a.checkoutBaseOk = true) :
    processZipFile pre base a cur =
      ([Eff.archiveStart cur a.zipName, Eff.mkTmp (tmpDirOf a.zipName),
        Eff.unzip a.zipName (tmpDirOf a.zipName), Eff.removeGit (tmpDirOf a.zipName),
        Eff.findCopy (tmpDirOf a.zipName), Eff.checkoutLocal (branchNameOf pre a.zipName),
        Eff.addAll, Eff.commit (commitMessageOf a.zipName),
        Eff.push (branchNameOf pre a.zipName), Eff.apiPost (branchNameOf pre a.zipName) base,
        Eff.logError, Eff.rmTmp (tmpDirOf a.zipName)],
       some (branchNameOf pre a.zipName)) ∧
    (processZipFile pre base (setApiOk a true) cur).1 =
      [Eff.archiveStart cur a.zipName, Eff.mkTmp (tmpDirOf a.zipName),
        Eff.unzip a.zipName (tmpDirOf a.zipName), Eff.removeGit (tmpDirOf a.zipName),
        Eff.findCopy (tmpDirOf a.zipName), Eff.checkoutLocal (branchNameOf pre a.zipName),
        Eff.addAll, Eff.commit (commitMessageOf a.zipName),
        Eff.push (branchNameOf pre a.zipName), Eff.apiPost (branchNameOf pre a.zipName) base,
        Eff.logSuccess, Eff.rmTmp (tmpDirOf a.zipName)] ∧
    mainLoop pre base (a :: rest) cur =
      ((processZipFile pre base a cur).1 ++
        Eff.checkoutBase base :: (mainLoop pre base rest base).1,
       (mainLoop pre base rest base).2) := by
  refine ⟨?_, ?_, mainLoop_cons_ok pre base a rest cur h hco⟩
  · rw [processZipFile_full pre base a cur h]
    simp [hapi]
  · rw [processZipFile_full pre base (setApiOk a true) cur h]
    simp [setApiOk]

/-- Witness for `api_failure_skips_only_success_log`: the scratch-directory
removal is attempted and the base branch checked out, with the API call
failing. -/
theorem api_failure_skips_only_success_log_witness :
    Eff.rmTmp (tmpDirOf "a.zip") ∈
      (processZipFile "script-branch" "main"
        (⟨"a.zip", true, true, true, true, true, true, true, true, false, true, true⟩ :
          ArchiveSpec) "main").1 ∧
    mainLoop "script-branch" "main"
        [(⟨"a.zip", true, true, true, true, true, true, true, true, false, true, true⟩ :
          ArchiveSpec)] "main" =
      ((processZipFile "script-branch" "main"
          (⟨"a.zip", true, true, true, true, true, true, true, true, false, true, true⟩ :
            ArchiveSpec) "main").1 ++
        Eff.checkoutBase "main" :: (mainLoop "script-branch" "main" [] "main").1,
       (mainLoop "script-branch" "main" [] "main").2) := by
  have h := api_failure_skips_only_success_log "script-branch" "main"
    (⟨"a.zip", true, true, true, true, true, true, true, true, false, true, true⟩ :
      ArchiveSpec) [] "main" (by decide) (by decide) (by decide)
  refine ⟨?_, h.2.2⟩
  rw [h.1]
  simp

/-!
## Lemmas about the extraction promise
-/

theorem unzipFile_ok_char (evs : List ZipEvent) :
    ∀ (out R : FSTree), unzipFile evs out = some (.ok R) →
      ∃ pre post, evs = pre ++ ZipEvent.closeEv :: post ∧
        (∀ e ∈ pre, isEntryEv e = true) ∧ R = pre.foldl applyEntry out := by
  induction evs with
  | nil => intro out R h; simp [unzipFile] at h
  | cons e rest ih =>
      intro out R h
      cases e with
      | entry p d c =>
          rw [unzipFile] at h
          obtain ⟨pre', post, he, hall, hR⟩ := ih (applyEntry out (.entry p d c)) R h
          refine ⟨ZipEvent.entry p d c :: pre', post, by rw [he, List.cons_append], ?_, ?_⟩
          · intro x hx
            rcases List.mem_cons.mp hx with heq | hx'
            · subst heq; rfl
            · exact hall x hx'
          · rw [List.foldl_cons]
            exact hR
      | closeEv =>
          rw [unzipFile] at h
          simp only [Option.some.injEq, Except.ok.injEq] at h
          exact ⟨[], rest, rfl, by simp, by simp [h]⟩
      | errorEv m => rw [unzipFile] at h; simp at h

theorem unzipFile_close (pre : List ZipEvent) :
    ∀ (post : List ZipEvent) (out : FSTree), (∀ e ∈ pre, isEntryEv e = true) →
      unzipFile (pre ++ ZipEvent.closeEv :: post) out =
        some (.ok (pre.foldl applyEntry out)) := by
  induction pre with
  | nil => intro post out _; simp [unzipFile]
  | cons e pre' ih =>
      intro post out hall
      cases e with
      | entry p d c =>
          rw [List.cons_append, unzipFile, List.foldl_cons]
          exact ih post (applyEntry out (.entry p d c))
            (fun x hx => hall x (List.mem_cons_of_mem _ hx))
      | closeEv => exact absurd (hall _ (List.mem_cons_self _ _)) (by simp [isEntryEv])
      | errorEv m => exact absurd (hall _ (List.mem_cons_self _ _)) (by simp [isEntryEv])

theorem unzipFile_error (pre : List ZipEvent) :
    ∀ (m : String) (post : List ZipEvent) (out : FSTree), (∀ e ∈ pre, isEntryEv e = true) →
      unzipFile (pre ++ ZipEvent.errorEv m :: post) out = some (.error m) := by
  induction pre with
  | nil => intro m post out _; simp [unzipFile]
  | cons e pre' ih =>
      intro m post out hall
      cases e with
      | entry p d c =>
          rw [List.cons_append, unzipFile]
          exact ih m post (applyEntry out (.entry p d c))
            (fun x hx => hall x (List.mem_cons_of_mem _ hx))
      | closeEv => exact absurd (hall _ (List.mem_cons_self _ _)) (by simp [isEntryEv])
      | errorEv m' => exact absurd (hall _ (List.mem_cons_self _ _)) (by simp [isEntryEv])

/-!
## Claim theorem: the extraction promise
-/

/-- C8: the extraction promise resolves only once the entire stream is
consumed — a resolution happens exactly at a `close` event, with every
prior event an `entry` already applied to the output tree — and any stream
error (the first non-entry event being `error`) rejects it with that
error; an extraction rejection makes the archive's processing reject
(`unzipOk = false` forces `processZipFile` to reject). -/
theorem unzip_resolves_only_after_stream_consumed :
    (∀ (evs : List ZipEvent) (out R : FSTree), unzipFile evs out = some (.ok R) →
      ∃ pre post, evs = pre ++ ZipEvent.closeEv :: post ∧
        (∀ e ∈ pre, isEntryEv e = true) ∧ R = pre.foldl applyEntry out) ∧
    (∀ (pre post : List ZipEvent) (out : FSTree), (∀ e ∈ pre, isEntryEv e = true) →
      unzipFile (pre ++ ZipEvent.closeEv :: post) out =
        some (.ok (pre.foldl applyEntry out))) ∧
    (∀ (pre : List ZipEvent) (m : String) (post : List ZipEvent) (out : FSTree),
      (∀ e ∈ pre, isEntryEv e = true) →
      unzipFile (pre ++ ZipEvent.errorEv m :: post) out = some (.error m)) ∧
    (∀ (pr base : String) (a : ArchiveSpec) (cur : String), a.unzipOk = false →
      (processZipFile pr base a cur).2 = none) := by
  refine ⟨unzipFile_ok_char, fun pre post out h => unzipFile_close pre post out h,
    fun pre m post out h => unzipFile_error pre m post out h, fun pr base a cur h => ?_⟩
  rw [processZipFile_snd]
  rw [if_neg (by simp [nonApiOk, h])]

/-- Witness for `unzip_resolves_only_after_stream_consumed`: a two-entry
stream (directory `Q1/`, file `Q1/f.txt`) resolves at `close` with the
materialized tree; an error after one entry rejects; a rejecting
extraction rejects the archive. -/
theorem unzip_resolves_only_after_stream_consumed_witness :
    unzipFile ([ZipEvent.entry ("Q1/") true [], ZipEvent.entry ("Q1/f.txt") false [1]] ++
        ZipEvent.closeEv :: []) (FSTree.dir []) =
      some (.ok ([ZipEvent.entry ("Q1/") true [],
        ZipEvent.entry ("Q1/f.txt") false [1]].foldl applyEntry (FSTree.dir []))) ∧
    unzipFile ([ZipEvent.entry ("Q1/") true []] ++
        ZipEvent.errorEv ("unexpected end of archive") :: []) (FSTree.dir []) =
      some (.error ("unexpected end of archive")) ∧
    (processZipFile "script-branch" "main"
        (⟨"a.zip", true, false, true, true, true, true, true, true, true, true, true⟩ :
          ArchiveSpec) "main").2 = none := by
  have h := unzip_resolves_only_after_stream_consumed
  exact ⟨h.2.1 _ _ (FSTree.dir []) (by decide),
    h.2.2.1 _ ("unexpected end of archive") _ (FSTree.dir []) (by decide),
    h.2.2.2 "script-branch" "main" _ "main" (by decide)⟩
